import Mathlib

/-!
Shallow embedding of `paddle/fluid/framework/ir/transfer_layout_pass.cc`.

The pass classifies `fused_conv2d_add_act` operator nodes whose
`data_format` is `NCHW`, filters the candidate set so that operators
sharing a weight agree, then commits the layout change: attribute edits,
physical weight conversion, shape permutations, and insertion of
memoized `transfer_layout` conversion operators.

Operator and value nodes are addressed by natural-number ids; descriptor
stores are association lists; the graph's edge store is a list of
(source id, target id) pairs in insertion order, so that the derived
`inputs` / `outputs` vectors of a node reproduce the push-back order of
the C++ node vectors.
-/

set_option maxRecDepth 4000

namespace TransferLayoutPassModel

/-- The two data layouts the pass manipulates (phi::DataLayout restricted
to the values occurring in the source). -/
inductive DataLayout where
  | kNCHW
  | kNHWC
deriving DecidableEq, Repr

/-- Integer tag of a layout, as produced by `static_cast<int>(layout)` on
`phi::DataLayout` (NHWC and NCHW are consecutive enumerators; the exact
numeric values are irrelevant to every claim). -/
def layoutTag : DataLayout → Int
  | .kNHWC => 1
  | .kNCHW => 2

/-- Dynamically typed attribute values of an operator descriptor
(paddle::framework::Attribute restricted to the types the pass touches;
the only float the pass writes is the exact constant `0.f`, represented
exactly as a rational). -/
inductive AttrVal where
  | boolV (b : Bool)
  | intV (n : Int)
  | floatV (q : Rat)
  | strV (s : String)
deriving DecidableEq, Repr

/-- Association-list lookup (first match wins). -/
def lookupK {κ α : Type} [BEq κ] : List (κ × α) → κ → Option α
  | [], _ => none
  | p :: l, k => if p.1 == k then some p.2 else lookupK l k

/-- Replace the value stored under a key (every entry with that key is
overwritten; lookups only ever see the first). -/
def updateK {κ α : Type} [BEq κ] (l : List (κ × α)) (k : κ) (v : α) : List (κ × α) :=
  l.map (fun p => if p.1 == k then (p.1, v) else p)

/-- Operator descriptor: type tag, named input slots, attribute map
(framework::OpDesc as used by the pass). -/
structure OpDesc where
  type : String
  inputsMap : List (String × List String)
  outputsMap : List (String × List String)
  attrs : List (String × AttrVal)
deriving DecidableEq, Repr

/-- `OpDesc::GetAttr`-style raw lookup. -/
def OpDesc.getAttr (d : OpDesc) (k : String) : Option AttrVal :=
  lookupK d.attrs k

/-- `OpDesc::HasAttr`. -/
def OpDesc.hasAttr (d : OpDesc) (k : String) : Bool :=
  (d.getAttr k).isSome

/-- `OpDesc::GetAttrIfExists<bool>`: the stored boolean when the
attribute is present, the default-constructed `false` when absent.
(A present attribute of a different type aborts in the real accessor;
theorems that read this accessor carry a well-typedness hypothesis.) -/
def OpDesc.getAttrBoolD (d : OpDesc) (k : String) : Bool :=
  match d.getAttr k with
  | some (.boolV b) => b
  | _ => false

/-- `OpDesc::GetAttrIfExists<std::string>`: the stored string when
present, the default-constructed empty string when absent. -/
def OpDesc.getAttrStrD (d : OpDesc) (k : String) : String :=
  match d.getAttr k with
  | some (.strV s) => s
  | _ => ""

/-- `OpDesc::SetAttr`: overwrite or append. -/
def OpDesc.setAttr (d : OpDesc) (k : String) (v : AttrVal) : OpDesc :=
  if (lookupK d.attrs k).isSome then
    { d with attrs := updateK d.attrs k v }
  else
    { d with attrs := d.attrs ++ [(k, v)] }

/-- `OpDesc::Input(name)`: the ordered argument list of an input slot
(the pass only queries slots that exist on the target operator;
an absent slot yields the empty list here). -/
def OpDesc.input (d : OpDesc) (slot : String) : List String :=
  (lookupK d.inputsMap slot).getD []

/-- `OpDesc::RenameInput(old, new)`: every occurrence of the old
argument name in every input slot is replaced by the new name. -/
def OpDesc.renameInput (d : OpDesc) (old new : String) : OpDesc :=
  { d with inputsMap := d.inputsMap.map (fun p => (p.1, p.2.map (fun x => if x == old then new else x))) }

/-- Value-node descriptor (framework::VarDesc as used by the pass). -/
structure VarDesc where
  name : String
  shape : List Int
  persistable : Bool
  dataType : Int
deriving DecidableEq, Repr

/-- Physical tensor buffer resolved through the parameter scope
(phi::DenseTensor as used by the pass: its layout tag and dims). -/
structure Tensor where
  layout : DataLayout
  dims : List Int
deriving DecidableEq, Repr

/-- The parameter scope: persistent variable name to physical buffer. -/
abbrev Scope : Type := List (String × Tensor)

/-- The shape permutation `[n,c,h,w] -> [n,h,w,c]` written inline in
`InsertLayoutTransOp` (lines 62-67) and in the commit phase. -/
def permNCHWtoNHWC (s : List Int) : List Int :=
  [s.getD 0 0, s.getD 2 0, s.getD 3 0, s.getD 1 0]

/-- The shape permutation `[n,h,w,c] -> [n,c,h,w]` written inline in
`InsertLayoutTransOp` (lines 68-74). -/
def permNHWCtoNCHW (s : List Int) : List Int :=
  [s.getD 0 0, s.getD 3 0, s.getD 1 0, s.getD 2 0]

/-- Modelled from the spec: `framework::TransDataLayout` (§6 Tensor
Storage `ConvertLayout`, not under the given sources) — converts the
buffer from NCHW to NHWC, so the resulting tensor carries the NHWC
layout tag and the permuted dims. -/
def transDataLayoutNCHWtoNHWC (t : Tensor) : Tensor :=
  { layout := .kNHWC, dims := permNCHWtoNHWC t.dims }

/-- Error taxonomy of the pass: the three precondition enforcements, and
the fatal mid-pass aborts (unguarded accesses / CHECK failures). -/
inductive PassError where
  | nullGraph
  | notMainGraph
  | nullScope
  | frontEmptyOpList
  | missingScopeVar (name : String)
  | rankCheckFailed
  | missingVarNode
  | missingOpNode
  | emptyInputs
deriving DecidableEq, Repr

/-- The single targeted operator kind (line 134). -/
def targetOpType : String := "fused_conv2d_add_act"

/-- `cuDNNIsValid` (lines 139-157): every `Filter` input must resolve in
the scope to a rank-4 tensor whose dims 0 and 1 are divisible by 8;
a missing variable or a rank other than 4 aborts (CHECK failure). -/
def cuDNNIsValid (sc : Scope) : List String → Except PassError Bool
  | [] => .ok true
  | f :: fs =>
    match lookupK sc f with
    | none => .error (.missingScopeVar f)
    | some t =>
      if t.dims.length = 4 then
        if t.dims.getD 0 0 % 8 == 0 && t.dims.getD 1 0 % 8 == 0 then
          cuDNNIsValid sc fs
        else
          .ok false
      else
        .error .rankCheckFailed

/-- `CutlassIsValid` (lines 159-167): the node must not request the
cuDNN kernel (attribute default true, so the attribute must be present
and false) and the process-wide `use_cutlass` flag must be set. -/
def CutlassIsValid (useCutlass : Bool) (d : OpDesc) : Bool :=
  let use_cudnn := if d.hasAttr "use_cudnn" then d.getAttrBoolD "use_cudnn" else true
  (!use_cudnn) && useCutlass

/-- The two per-node guards of the classification loop (lines 172-180):
op type and declared data format. -/
def matchesTarget (d : OpDesc) : Bool :=
  d.type == targetOpType && d.getAttrStrD "data_format" == "NCHW"

/-- `valid_ops` is an unordered set of node pointers; modelled as a
duplicate-free list with membership-guarded insertion. -/
def setInsert (l : List Nat) (i : Nat) : List Nat :=
  if i ∈ l then l else l ++ [i]

/-- `unordered_set::erase`. -/
def setErase (l : List Nat) (i : Nat) : List Nat :=
  l.filter (fun x => x ≠ i)

/-- `weights_shared` multimap, kept as (filter name, node id) pairs in
push-back order. -/
abbrev WeightsShared : Type := List (String × Nat)

/-- The node list stored under one filter name. -/
def wsGroup (ws : WeightsShared) (f : String) : List Nat :=
  (ws.filter (fun p => p.1 == f)).map (fun p => p.2)

/-- One iteration of the classification loop (lines 169-190): skip
non-target or non-NCHW nodes; push the node under each of its filter
names; insert it into `valid_ops` when `cuDNNIsValid || CutlassIsValid`. -/
def classifyStep (sc : Scope) (uc : Bool) (acc : List Nat × WeightsShared)
    (p : Nat × OpDesc) : Except PassError (List Nat × WeightsShared) :=
  if matchesTarget p.2 then
    match cuDNNIsValid sc (p.2.input "Filter") with
    | .error e => .error e
    | .ok b =>
      if b || CutlassIsValid uc p.2 then
        .ok (setInsert acc.1 p.1, acc.2 ++ (p.2.input "Filter").map (fun f => (f, p.1)))
      else
        .ok (acc.1, acc.2 ++ (p.2.input "Filter").map (fun f => (f, p.1)))
  else
    .ok acc

/-- The classification loop, iterated by structural recursion. -/
def classifyOpsAux (sc : Scope) (uc : Bool) (acc : List Nat × WeightsShared) :
    List (Nat × OpDesc) → Except PassError (List Nat × WeightsShared)
  | [] => .ok acc
  | p :: rest =>
    match classifyStep sc uc acc p with
    | .error e => .error e
    | .ok acc' => classifyOpsAux sc uc acc' rest

/-- The classification loop over the topologically sorted operator
nodes. -/
def classifyOps (sc : Scope) (uc : Bool) (ops : List (Nat × OpDesc)) :
    Except PassError (List Nat × WeightsShared) :=
  classifyOpsAux sc uc ([], []) ops

/-- The body of the shared-weight consistency check for one filter name
(lines 197-207): if any sharer of the filter is not currently valid,
erase every sharer. -/
def filterOne (ws : WeightsShared) (v : List Nat) (f : String) : List Nat :=
  if (wsGroup ws f).any (fun n => !(v.contains n)) then
    (wsGroup ws f).foldl setErase v
  else v

/-- One iteration of the shared-weight consistency loop (lines 193-209):
when the node is currently valid, run the check over each of its filter
names. -/
def filterStep (ws : WeightsShared) (valid : List Nat) (p : Nat × OpDesc) : List Nat :=
  if p.1 ∈ valid then (p.2.input "Filter").foldl (filterOne ws) valid
  else valid

/-- The shared-weight consistency filter over the same operator list. -/
def filterSharedOps (ws : WeightsShared) (ops : List (Nat × OpDesc)) (valid : List Nat) : List Nat :=
  ops.foldl (filterStep ws) valid

/-- Graph state threaded through the commit loop: the parameter scope,
the operator and value node stores, the edge store, the single block
descriptor, the conversion cache, the `vars_shape_nhwc` set, the
fresh-id counter of the graph's node arena, and the recorded sequence
of `InsertLayoutTransOp` invocations (producer id, from-layout,
to-layout), kept for the temporal claims. -/
structure CState where
  scope : Scope
  opDescs : List (Nat × OpDesc)
  varDescs : List (Nat × VarDesc)
  edges : List (Nat × Nat)
  block : List (String × VarDesc)
  cache : List (Nat × Nat)
  nhwcVars : List Nat
  nextId : Nat
  calls : List (Nat × DataLayout × DataLayout)
deriving Repr

/-- The ordered input vector of a node, derived from the edge store. -/
def inputsOf (edges : List (Nat × Nat)) (n : Nat) : List Nat :=
  (edges.filter (fun e => e.2 == n)).map (fun e => e.1)

/-- The ordered output vector of a node. -/
def outputsOf (edges : List (Nat × Nat)) (n : Nat) : List Nat :=
  (edges.filter (fun e => e.1 == n)).map (fun e => e.2)

/-- Modelled from the spec: `IR_NODE_LINK_TO` / Graph Model `LinkEdge`
(§6, not under the given sources) — push-back on both endpoint vectors,
i.e. appending one edge. -/
def linkTo (edges : List (Nat × Nat)) (a b : Nat) : List (Nat × Nat) :=
  edges ++ [(a, b)]

/-- Modelled from the spec: `IR_NODE_UNLINK` / Graph Model `UnlinkEdge`
(§6) — removes the a→b edge (every stored copy) from both endpoint
vectors. -/
def unlinkEdge (edges : List (Nat × Nat)) (a b : Nat) : List (Nat × Nat) :=
  edges.filter (fun e => !(e.1 == a && e.2 == b))

/-- `BlockDesc::Var(name)`: find-or-create the named variable descriptor
in the block. -/
def blockVar (block : List (String × VarDesc)) (name : String) : VarDesc :=
  match lookupK block name with
  | some d => d
  | none => { name := name, shape := [], persistable := false, dataType := 0 }

/-- Store a variable descriptor back into the block (overwrite or
append). -/
def blockPut (block : List (String × VarDesc)) (name : String) (d : VarDesc) :
    List (String × VarDesc) :=
  if (lookupK block name).isSome then updateK block name d
  else block ++ [(name, d)]

/-- The operator descriptor built by `update_op_desc` (lines 42-51). -/
def convOpDesc (pd : VarDesc) (outName : String) (fromL toL : DataLayout) : OpDesc :=
  { type := "transfer_layout",
    inputsMap := [("X", [pd.name])],
    outputsMap := [("Out", [outName])],
    attrs := [("src_layout", .intV (layoutTag fromL)),
              ("dst_layout", .intV (layoutTag toL))] }

/-- The output value descriptor built at creation (lines 57-74). -/
def convOutDesc (block : List (String × VarDesc)) (outName : String) (pd : VarDesc)
    (fromL : DataLayout) : VarDesc :=
  { blockVar block outName with
    persistable := false,
    dataType := pd.dataType,
    shape := if fromL = .kNCHW then permNCHWtoNHWC pd.shape
             else permNHWCtoNCHW pd.shape }

/-- The body of `do_insert` in `InsertLayoutTransOp` (lines 40-86),
after the direction has selected the name suffix.  When the producer is
not yet cached: create the `transfer_layout` operator node, create its
output value node in the block with the producer's datatype and the
direction-permuted shape, link op → out-var, and cache
producer ↦ out-var.  Always: rename the consumer's input reference to
the cached name, link producer → (cached out-var's first input, the
conversion op), link cached out-var → consumer, and unlink
producer → consumer. -/
def doInsert (prevId nextId : Nat) (fromL toL : DataLayout)
    (outName : String) (st : CState) : Except PassError CState :=
  match lookupK st.varDescs prevId with
  | none => .error .missingVarNode
  | some prevDesc =>
    let st1 : CState :=
      if (lookupK st.cache prevId).isNone then
        { st with
          opDescs := st.opDescs ++ [(st.nextId, convOpDesc prevDesc outName fromL toL)],
          block := blockPut st.block outName (convOutDesc st.block outName prevDesc fromL),
          varDescs := st.varDescs ++ [(st.nextId + 1, convOutDesc st.block outName prevDesc fromL)],
          edges := linkTo st.edges st.nextId (st.nextId + 1),
          cache := st.cache ++ [(prevId, st.nextId + 1)],
          nextId := st.nextId + 2 }
      else st
    match lookupK st1.cache prevId with
    | none => .error .missingVarNode
    | some cachedVarId =>
      match lookupK st1.varDescs cachedVarId with
      | none => .error .missingVarNode
      | some cachedDesc =>
        match lookupK st1.opDescs nextId with
        | none => .error .missingOpNode
        | some nextDesc =>
          match (inputsOf st1.edges cachedVarId).head? with
          | none => .error .emptyInputs
          | some frontNode =>
            Except.ok { st1 with
              opDescs := updateK st1.opDescs nextId
                (nextDesc.renameInput prevDesc.name cachedDesc.name),
              edges := unlinkEdge (linkTo (linkTo st1.edges prevId frontNode) cachedVarId nextId) prevId nextId }

/-- `InsertLayoutTransOp` (lines 33-99): records the invocation, and for
the two supported direction pairs builds the suffixed output name and
runs `do_insert`; any other pair is a no-op. -/
def InsertLayoutTransOp (prevId nextId : Nat) (fromL toL : DataLayout)
    (st : CState) : Except PassError CState :=
  let st := { st with calls := st.calls ++ [(prevId, fromL, toL)] }
  if fromL = .kNCHW ∧ toL = .kNHWC then
    match lookupK st.varDescs prevId with
    | none => .error .missingVarNode
    | some prevDesc => doInsert prevId nextId fromL toL (prevDesc.name ++ "_nchw_to_nhwc") st
  else if fromL = .kNHWC ∧ toL = .kNCHW then
    match lookupK st.varDescs prevId with
    | none => .error .missingVarNode
    | some prevDesc => doInsert prevId nextId fromL toL (prevDesc.name ++ "_nhwc_to_nchw") st
  else
    Except.ok st

/-- Attribute edits for a valid node (lines 216-229): the Cutlass branch
adds the `fuse_alpha` default when absent; otherwise the cuDNN branch
forces `use_cudnn` true when present; in both cases `data_format`
becomes `NHWC`. -/
def commitAttrs (uc : Bool) (opId : Nat) (st : CState) : Except PassError CState :=
  match lookupK st.opDescs opId with
  | none => .error .missingOpNode
  | some d =>
    if CutlassIsValid uc d then
      .ok { st with opDescs := updateK st.opDescs opId ((if d.hasAttr "fuse_alpha" then d else d.setAttr "fuse_alpha" (.floatV 0)).setAttr "data_format" (.strV "NHWC")) }
    else
      match cuDNNIsValid st.scope (d.input "Filter") with
      | .error e => .error e
      | .ok true =>
        .ok { st with opDescs := updateK st.opDescs opId ((if d.hasAttr "use_cudnn" then d.setAttr "use_cudnn" (.boolV true) else d).setAttr "data_format" (.strV "NHWC")) }
      | .ok false =>
        .ok { st with opDescs := updateK st.opDescs opId (d.setAttr "data_format" (.strV "NHWC")) }

/-- The inner shape-edit loop of the weight transfer (lines 248-257):
permute the declared shape of every persistable input value node of
this operator carrying the filter name. -/
def shapeEditVars (f : String) : List Nat → CState → Except PassError CState
  | [], st => .ok st
  | vId :: rest, st =>
    match lookupK st.varDescs vId with
    | none => .error .missingVarNode
    | some vd =>
      if vd.persistable && vd.name == f then
        shapeEditVars f rest
          { st with varDescs := updateK st.varDescs vId { vd with shape := permNCHWtoNHWC vd.shape } }
      else shapeEditVars f rest st

/-- Weight transfer for one filter name of a valid node (lines 233-258):
resolve the buffer; skip entirely when it is already NHWC; otherwise
convert it and run the shape-edit loop over this operator's inputs. -/
def transferWeightsOne (opId : Nat) (st : CState) (f : String) : Except PassError CState :=
  match lookupK st.scope f with
  | none => .error (.missingScopeVar f)
  | some t =>
    if t.layout = .kNHWC then
      .ok st
    else
      let st1 := { st with scope := updateK st.scope f (transDataLayoutNCHWtoNHWC t) }
      shapeEditVars f (inputsOf st1.edges opId) st1

/-- The weight-transfer loop over the operator's filter names. -/
def transferWeights (opId : Nat) : List String → CState → Except PassError CState
  | [], st => .ok st
  | f :: fs, st =>
    match transferWeightsOne opId st f with
    | .error e => .error e
    | .ok st' => transferWeights opId fs st'

/-- The output-transfer loop body of a valid node (lines 261-270):
permute the declared shape of every non-persistable output and record
it in `vars_shape_nhwc`. -/
def outputsEdit : List Nat → CState → Except PassError CState
  | [], st => .ok st
  | vId :: rest, st =>
    match lookupK st.varDescs vId with
    | none => .error .missingVarNode
    | some vd =>
      if vd.persistable then outputsEdit rest st
      else
        outputsEdit rest
          { st with
            varDescs := updateK st.varDescs vId { vd with shape := permNCHWtoNHWC vd.shape },
            nhwcVars := setInsert st.nhwcVars vId }

/-- Output transfer for a valid node: snapshot of the output vector,
then the edit loop. -/
def transferOutputs (opId : Nat) (st : CState) : Except PassError CState :=
  outputsEdit (outputsOf st.edges opId) st

/-- The conversion-insertion loop of a valid node (lines 272-287):
every non-persistable input not recorded as NHWC receives an NCHW→NHWC
conversion. -/
def insertValidLoop (opId : Nat) : List Nat → CState → Except PassError CState
  | [], st => .ok st
  | vId :: rest, st =>
    match lookupK st.varDescs vId with
    | none => .error .missingVarNode
    | some vd =>
      if vd.persistable then insertValidLoop opId rest st
      else if vId ∈ st.nhwcVars then insertValidLoop opId rest st
      else
        match InsertLayoutTransOp vId opId .kNCHW .kNHWC st with
        | .error e => .error e
        | .ok st' => insertValidLoop opId rest st'

/-- Conversion insertion for a valid node: snapshot of the input
vector, then the loop. -/
def insertForValid (opId : Nat) (st : CState) : Except PassError CState :=
  insertValidLoop opId (inputsOf st.edges opId) st

/-- The conversion-insertion loop of an invalid node (lines 288-303):
every input recorded as NHWC receives an NHWC→NCHW conversion. -/
def insertInvalidLoop (opId : Nat) : List Nat → CState → Except PassError CState
  | [], st => .ok st
  | vId :: rest, st =>
    match lookupK st.varDescs vId with
    | none => .error .missingVarNode
    | some _ =>
      if vId ∈ st.nhwcVars then
        match InsertLayoutTransOp vId opId .kNHWC .kNCHW st with
        | .error e => .error e
        | .ok st' => insertInvalidLoop opId rest st'
      else insertInvalidLoop opId rest st

/-- Conversion insertion for an invalid node: snapshot of the input
vector, then the loop. -/
def insertForInvalid (opId : Nat) (st : CState) : Except PassError CState :=
  insertInvalidLoop opId (inputsOf st.edges opId) st

/-- The `Filter` input list re-read from the stored descriptor (after
the attribute edits flushed it). -/
def opFilters (l : List (Nat × OpDesc)) (opId : Nat) : List String :=
  match lookupK l opId with
  | some d => d.input "Filter"
  | none => []

/-- One iteration of the commit loop (lines 212-304). -/
def commitOne (uc : Bool) (valid : List Nat) (st : CState) (opId : Nat) :
    Except PassError CState :=
  if opId ∈ valid then
    match commitAttrs uc opId st with
    | .error e => .error e
    | .ok st1 =>
      match transferWeights opId (opFilters st1.opDescs opId) st1 with
      | .error e => .error e
      | .ok st2 =>
        match transferOutputs opId st2 with
        | .error e => .error e
        | .ok st3 => insertForValid opId st3
  else
    insertForInvalid opId st

/-- The commit loop over the topologically sorted operator ids. -/
def commitOps (uc : Bool) (valid : List Nat) : List Nat → CState → Except PassError CState
  | [], st => .ok st
  | opId :: rest, st =>
    match commitOne uc valid st opId with
    | .error e => .error e
    | .ok st' => commitOps uc valid rest st'

/-- The output-name suffix selected by the conversion direction
(lines 90-97). -/
def dirSuffix : DataLayout → String
  | .kNCHW => "_nchw_to_nhwc"
  | .kNHWC => "_nhwc_to_nchw"

/-- Repeated conversion insertion from one producer to a list of
consumer operators, all requests in the same direction — the call
pattern the commit loop produces for a producer with several consumers
of one kind. -/
def runInserts (prevId : Nat) (fromL toL : DataLayout) : List Nat → CState → Except PassError CState
  | [], st => .ok st
  | c :: cs, st =>
    match InsertLayoutTransOp prevId c fromL toL st with
    | .error e => .error e
    | .ok st' => runInserts prevId fromL toL cs st'

/-- The graph handed to the pass: main-graph flag, the parameter-scope
attribute, the topologically sorted operator nodes, the value nodes,
the edges, the single block, and the arena's fresh-id bound. -/
structure GState where
  isMain : Bool
  scope : Option Scope
  ops : List (Nat × OpDesc)
  varDescs : List (Nat × VarDesc)
  edges : List (Nat × Nat)
  block : List (String × VarDesc)
  nextId : Nat
deriving Repr

/-- Outcome of one pass invocation: success, a precondition enforcement
raised before any node is visited (carrying the untouched input graph),
or a fatal mid-pass abort. -/
inductive PassResult where
  | ok (st : CState)
  | preErr (e : PassError) (g : Option GState)
  | crash (e : PassError)
deriving Repr

/-- `TransferLayoutPass::ApplyImpl` (lines 103-306): the three
precondition enforcements (null graph; `FusePassBase::Init`, modelled
from the spec as pure pass-internal bookkeeping; main-graph check;
null-scope check), the unguarded `*op_nodes.cbegin()` used to grab the
block descriptor, then the three loops. -/
def ApplyImpl (uc : Bool) (gopt : Option GState) : PassResult :=
  match gopt with
  | none => .preErr .nullGraph none
  | some g =>
    let scopeOpt := g.scope
    if !g.isMain then .preErr .notMainGraph (some g)
    else
      match scopeOpt with
      | none => .preErr .nullScope (some g)
      | some sc =>
        match g.ops.head? with
        | none => .crash .frontEmptyOpList
        | some _ =>
          match classifyOps sc uc g.ops with
          | .error e => .crash e
          | .ok (valid0, ws) =>
            let valid := filterSharedOps ws g.ops valid0
            let st0 : CState :=
              { scope := sc, opDescs := g.ops, varDescs := g.varDescs,
                edges := g.edges, block := g.block, cache := [],
                nhwcVars := [], nextId := g.nextId, calls := [] }
            match commitOps uc valid (g.ops.map (fun p => p.1)) st0 with
            | .error e => .crash e
            | .ok st => .ok st

/-! ### Concrete graphs used by counterexamples and witnesses -/

/-- A target-kind operator descriptor with the given filter list and
attributes. -/
def mkConv (fs : List String) (attrs : List (String × AttrVal)) : OpDesc :=
  { type := "fused_conv2d_add_act", inputsMap := [("Filter", fs), ("Input", [])],
    outputsMap := [("Output", [])], attrs := attrs }

/-- A rank-4 NCHW filter tensor with the given leading two dims. -/
def t4 (a b : Int) : Tensor := { layout := .kNCHW, dims := [a, b, 3, 3] }

/-- The usual `data_format = NCHW` attribute list. -/
def nchwA : List (String × AttrVal) := [("data_format", .strV "NCHW")]

/-- Scope of the sharing-chain graph: f0 is misaligned (15 output
channels), f1/f2/f3 are aligned. -/
def c2sc : Scope := [("f0", t4 15 16), ("f1", t4 16 16), ("f2", t4 16 16), ("f3", t4 16 16)]

/-- Sharing chain: node 0 reads f3; node 1 reads f2,f3; node 2 reads
f1,f2; node 3 reads f0,f1 and is ineligible through f0. -/
def c2ops : List (Nat × OpDesc) :=
  [(0, mkConv ["f3"] nchwA), (1, mkConv ["f2", "f3"] nchwA),
   (2, mkConv ["f1", "f2"] nchwA), (3, mkConv ["f0", "f1"] nchwA)]

/-- The candidate set and weight-sharing index of the chain graph. -/
def c2Classified : List Nat × WeightsShared :=
  match classifyOps c2sc false c2ops with
  | .ok r => r
  | .error _ => ([], [])

/-- The candidate set of the chain graph after the consistency filter. -/
def c2Final : List Nat := filterSharedOps c2Classified.2 c2ops c2Classified.1

/-- Scope with the single aligned shared filter `w`. -/
def c4sc : Scope := [("w", t4 16 16)]

/-- Two eligible operators both reading filter `w`. -/
def c4ops : List (Nat × OpDesc) := [(10, mkConv ["w"] nchwA), (11, mkConv ["w"] nchwA)]

/-- Commit-phase state in which operators 10 and 11 reference the shared
persistent filter `w` through the distinct value nodes 1 and 2. -/
def c4st : CState :=
  { scope := c4sc, opDescs := c4ops,
    varDescs := [(1, { name := "w", shape := [16, 16, 3, 3], persistable := true, dataType := 5 }),
                 (2, { name := "w", shape := [16, 16, 3, 3], persistable := true, dataType := 5 })],
    edges := [(1, 10), (2, 11)], block := [], cache := [], nhwcVars := [],
    nextId := 100, calls := [] }

/-- Result of the commit loop on the shared-filter graph. -/
def c4Final : Option CState := (commitOps false [10, 11] [10, 11] c4st).toOption

/-- A node satisfying both P1 (aligned filter) and P2 (use_cudnn
explicitly false). -/
def c5d : OpDesc := mkConv ["w"] [("data_format", .strV "NCHW"), ("use_cudnn", .boolV false)]

/-- Commit-phase state holding only the P1-and-P2 node 20. -/
def c5st : CState :=
  { scope := c4sc, opDescs := [(20, c5d)],
    varDescs := [(1, { name := "w", shape := [16, 16, 3, 3], persistable := true, dataType := 5 })],
    edges := [(1, 20)], block := [], cache := [], nhwcVars := [],
    nextId := 100, calls := [] }

/-- Result of the commit loop on the P1-and-P2 node (use_cutlass on). -/
def c5Final : Option CState := (commitOps true [20] [20] c5st).toOption

/-- The producer value node of the memoization witness graph. -/
def c3pd : VarDesc := { name := "x", shape := [1, 16, 32, 32], persistable := false, dataType := 5 }

/-- Commit-phase state with producer value node 0 feeding the three
consumer operators 1, 2, 3. -/
def c3st : CState :=
  { scope := [], opDescs := [(1, mkConv [] nchwA), (2, mkConv [] nchwA), (3, mkConv [] nchwA)],
    varDescs := [(0, c3pd)],
    edges := [(0, 1), (0, 2), (0, 3)], block := [], cache := [], nhwcVars := [],
    nextId := 50, calls := [] }

/-- The state after inserting conversions for all three consumers. -/
def c3Res : CState :=
  match runInserts 0 .kNCHW .kNHWC [1, 2, 3] c3st with
  | .ok s => s
  | .error _ => c3st

/-- A P1-only node with use_cudnn present (true). -/
def c5wd : OpDesc := mkConv ["w"] [("data_format", .strV "NCHW"), ("use_cudnn", .boolV true)]

/-- Commit-phase state holding only the P1-only node 21. -/
def c5wSt : CState :=
  { scope := c4sc, opDescs := [(21, c5wd)],
    varDescs := [(1, { name := "w", shape := [16, 16, 3, 3], persistable := true, dataType := 5 })],
    edges := [(1, 21)], block := [], cache := [], nhwcVars := [],
    nextId := 100, calls := [] }

/-- The state after the attribute edits of node 21. -/
def c5wRes : CState :=
  match commitAttrs false 21 c5wSt with
  | .ok s => s
  | .error _ => c5wSt

/-! ### Invariants for the conversion-direction discipline (commit loop) -/

/-- Endpoint bound of an edge store: every endpoint id lies below the
arena's fresh-id counter. -/
def edgeBound (n : Nat) (es : List (Nat × Nat)) : Prop :=
  ∀ p ∈ es, p.1 < n ∧ p.2 < n

/-- Invariant of the conversion cache during the commit loop: every
cached output value node is a node freshly allocated by the pass, its
input vector is exactly its conversion operator node (also fresh), and
that operator node is no cached value. -/
def cacheOK (n0 : Nat) (cache : List (Nat × Nat)) (nid : Nat)
    (es : List (Nat × Nat)) : Prop :=
  ∀ p ∈ cache, n0 ≤ p.2 ∧ p.2 < nid ∧
    ∃ co, n0 ≤ co ∧ co < nid ∧ inputsOf es p.2 = [co] ∧
      ∀ q ∈ cache, ¬(co = q.2)

/-- The edges of the operators still to be committed are original:
every current edge into or out of a remaining operator was already an
edge of the input graph. -/
def remEdges (E0 : List (Nat × Nat)) (rem : List Nat)
    (es : List (Nat × Nat)) : Prop :=
  ∀ o ∈ rem, (∀ x, (x, o) ∈ es → (x, o) ∈ E0) ∧
    (∀ y, (o, y) ∈ es → (o, y) ∈ E0)

/-- Direction discipline of the recorded conversion requests: an
NHWC→NCHW request names a producer recorded in `vars_shape_nhwc`; an
NCHW→NHWC request names a producer outside it that no remaining
operator produces in the input graph. -/
def dirOK (E0 : List (Nat × Nat)) (rem : List Nat)
    (calls : List (Nat × DataLayout × DataLayout)) (nhwc : List Nat) : Prop :=
  ∀ c ∈ calls,
    (c.2.1 = DataLayout.kNHWC ∧ c.2.2 = DataLayout.kNCHW ∧ c.1 ∈ nhwc) ∨
    (c.2.1 = DataLayout.kNCHW ∧ c.2.2 = DataLayout.kNHWC ∧ c.1 ∉ nhwc ∧
      ∀ o ∈ rem, ¬((o, c.1) ∈ E0))

/-- The commit-loop invariant for the direction-discipline proof. -/
def commitInv (E0 : List (Nat × Nat)) (n0 : Nat) (rem : List Nat)
    (st : CState) : Prop :=
  n0 ≤ st.nextId ∧ edgeBound st.nextId st.edges ∧
  cacheOK n0 st.cache st.nextId st.edges ∧
  remEdges E0 rem st.edges ∧ dirOK E0 rem st.calls st.nhwcVars

/-- An eligible target operator with no filters (node 10 of the C8
witness graph). -/
def c8convDesc : OpDesc := mkConv [] nchwA

/-- A non-target consumer operator (node 11 of the C8 witness graph). -/
def c8reluDesc : OpDesc :=
  { type := "relu", inputsMap := [("X", ["y"])], outputsMap := [("Out", [])],
    attrs := [] }

/-- The conv input value of the C8 witness graph. -/
def c8vx : VarDesc := { name := "x", shape := [1, 8, 4, 4], persistable := false, dataType := 5 }

/-- The conv output value of the C8 witness graph, read by the
ineligible consumer. -/
def c8vy : VarDesc := { name := "y", shape := [1, 8, 4, 4], persistable := false, dataType := 5 }

/-- C8 witness graph: eligible conv 10 reads value 1 and produces
value 2, which the ineligible op 11 consumes — so the run issues one
NCHW→NHWC request (producer 1) and one NHWC→NCHW request
(producer 2). -/
def c8st : CState :=
  { scope := [], opDescs := [(10, c8convDesc), (11, c8reluDesc)],
    varDescs := [(1, c8vx), (2, c8vy)],
    edges := [(1, 10), (10, 2), (2, 11)], block := [], cache := [],
    nhwcVars := [], nextId := 100, calls := [] }

/-- The C8 witness run. -/
def c8Res : Except PassError CState := commitOps false [10] [10, 11] c8st

/-- The final state of the C8 witness run. -/
def c8stF : CState :=
  match c8Res with
  | .ok s => s
  | .error _ => c8st

/-- The single node of the C1 witness graph. -/
def c1d : OpDesc := mkConv ["w"] nchwA

/-- An empty-but-well-formed main graph. -/
def emptyMainGraph : GState :=
  { isMain := true, scope := some [], ops := [], varDescs := [], edges := [],
    block := [], nextId := 0 }

/-! ### The claim-side eligibility predicate and classification lemmas -/

/-- The eligibility predicate exactly as the claim states it: targeted
op kind, `data_format` equal to NCHW, and P1 (every Filter input
resolves to a tensor whose dims 0 and 1 are divisible by 8) or P2
(`use_cudnn` explicitly false and the process-wide policy flag set).
Stated from the spec's words, to be compared with the classification
loop. -/
def eligibleSpecP (sc : Scope) (uc : Bool) (d : OpDesc) : Prop :=
  d.type = targetOpType ∧ d.getAttr "data_format" = some (.strV "NCHW") ∧
  ((∀ f ∈ d.input "Filter", ∃ t, lookupK sc f = some t ∧
      (8 : Int) ∣ t.dims.getD 0 0 ∧ (8 : Int) ∣ t.dims.getD 1 0) ∨
   (d.getAttr "use_cudnn" = some (.boolV false) ∧ uc = true))

/-- The layout-relevant attributes carry their documented types (the
real accessors abort on a type mismatch; this keeps the defaulting
accessors faithful). -/
def attrsWellTyped (d : OpDesc) : Prop :=
  (∀ v, d.getAttr "data_format" = some v → ∃ s, v = AttrVal.strV s) ∧
  (∀ v, d.getAttr "use_cudnn" = some v → ∃ b, v = AttrVal.boolV b)

/-- The exact condition under which the classification loop inserts a
node: both guards pass and `cuDNNIsValid || CutlassIsValid`
short-circuits to true. -/
def stepEligible (sc : Scope) (uc : Bool) (d : OpDesc) : Prop :=
  matchesTarget d = true ∧ ∃ b, cuDNNIsValid sc (d.input "Filter") = .ok b ∧
    (b = true ∨ CutlassIsValid uc d = true)

section AssocLemmas

variable {κ α : Type} [BEq κ]

lemma lookupK_cons (p : κ × α) (l : List (κ × α)) (k : κ) :
    lookupK (p :: l) k = if p.1 == k then some p.2 else lookupK l k := rfl

lemma updateK_cons (p : κ × α) (l : List (κ × α)) (k : κ) (v : α) :
    updateK (p :: l) k v = (if p.1 == k then (p.1, v) else p) :: updateK l k v := by
  unfold updateK
  rw [List.map_cons]

lemma lookupK_updateK_self (l : List (κ × α)) (k : κ) (v : α) :
    lookupK (updateK l k v) k = if (lookupK l k).isSome then some v else none := by
  induction l with
  | nil => rfl
  | cons p rest ih =>
    rw [updateK_cons]
    by_cases h : (p.1 == k) = true
    · simp [lookupK_cons, h]
    · simp [lookupK_cons, h, ih]

lemma lookupK_updateK_ne [LawfulBEq κ] (l : List (κ × α)) (k k' : κ) (v : α) (h : ¬(k' = k)) :
    lookupK (updateK l k v) k' = lookupK l k' := by
  induction l with
  | nil => rfl
  | cons p rest ih =>
    rw [updateK_cons]
    by_cases hk : (p.1 == k) = true
    · have hkk : p.1 = k := eq_of_beq hk
      have hk' : (p.1 == k') = false := by
        subst hkk
        exact beq_eq_false_iff_ne.mpr (fun he => h he.symm)
      rw [if_pos hk]
      simp [lookupK_cons, hk', ih]
    · simp only [if_neg hk]
      by_cases hk' : (p.1 == k') = true
      · simp [lookupK_cons, hk']
      · simp [lookupK_cons, hk', ih]

lemma lookupK_updateK_isSome [LawfulBEq κ] (l : List (κ × α)) (k k' : κ) (v : α) :
    (lookupK (updateK l k v) k').isSome = (lookupK l k').isSome := by
  by_cases h : k' = k
  · subst h
    rw [lookupK_updateK_self]
    cases hs : (lookupK l k').isSome <;> simp [hs]
  · rw [lookupK_updateK_ne l k k' v h]

lemma lookupK_append (l l' : List (κ × α)) (k : κ) :
    lookupK (l ++ l') k =
      match lookupK l k with
      | some v => some v
      | none => lookupK l' k := by
  induction l with
  | nil => rfl
  | cons p rest ih =>
    rw [List.cons_append]
    by_cases h : (p.1 == k) = true
    · simp [lookupK_cons, h]
    · simp [lookupK_cons, h, ih]

end AssocLemmas

lemma mem_setInsert {l : List Nat} {i j : Nat} : i ∈ setInsert l j ↔ i ∈ l ∨ i = j := by
  unfold setInsert
  by_cases h : j ∈ l
  · simp only [if_pos h]
    constructor
    · exact Or.inl
    · rintro (hi | rfl)
      · exact hi
      · exact h
  · simp [if_neg h]

lemma eq_of_mem_keyNodup {α : Type} {l : List (Nat × α)} (h : (l.map Prod.fst).Nodup)
    {i : Nat} {a b : α} (ha : (i, a) ∈ l) (hb : (i, b) ∈ l) : a = b := by
  induction l with
  | nil => cases ha
  | cons p rest ih =>
    simp only [List.map_cons, List.nodup_cons] at h
    rcases List.mem_cons.mp ha with heqa | ha'
    · rcases List.mem_cons.mp hb with heqb | hb'
      · rw [← heqa] at heqb
        injection heqb with _ h4
        exact h4.symm
      · exfalso
        apply h.1
        rw [← heqa]
        exact List.mem_map.mpr ⟨(i, b), hb', rfl⟩
    · rcases List.mem_cons.mp hb with heqb | hb'
      · exfalso
        apply h.1
        rw [← heqb]
        exact List.mem_map.mpr ⟨(i, a), ha', rfl⟩
      · exact ih h.2 ha' hb'

lemma matchesTarget_iff (d : OpDesc) (hwt : attrsWellTyped d) :
    matchesTarget d = true ↔
      (d.type = targetOpType ∧ d.getAttr "data_format" = some (.strV "NCHW")) := by
  unfold matchesTarget
  cases h : d.getAttr "data_format" with
  | none => simp [OpDesc.getAttrStrD, h]
  | some v =>
    obtain ⟨s, rfl⟩ := hwt.1 v h
    simp [OpDesc.getAttrStrD, h]

lemma CutlassIsValid_iff (uc : Bool) (d : OpDesc) (hwt : attrsWellTyped d) :
    CutlassIsValid uc d = true ↔
      (d.getAttr "use_cudnn" = some (.boolV false) ∧ uc = true) := by
  unfold CutlassIsValid
  cases h : d.getAttr "use_cudnn" with
  | none => simp [OpDesc.hasAttr, h]
  | some v =>
    obtain ⟨b, rfl⟩ := hwt.2 v h
    cases b <;> simp [OpDesc.hasAttr, OpDesc.getAttrBoolD, h]

lemma cuDNNIsValid_ok_true (sc : Scope) :
    ∀ (fs : List String), cuDNNIsValid sc fs = .ok true →
      ∀ f ∈ fs, ∃ t, lookupK sc f = some t ∧
        t.dims.getD 0 0 % 8 = 0 ∧ t.dims.getD 1 0 % 8 = 0 := by
  intro fs
  induction fs with
  | nil => intro _ f hf; cases hf
  | cons f fs ih =>
    intro h g hg
    rw [cuDNNIsValid] at h
    split at h
    next hl => cases h
    next t hl =>
      split at h
      next hr =>
        split at h
        next ha =>
          simp only [Bool.and_eq_true, beq_iff_eq] at ha
          rcases List.mem_cons.mp hg with rfl | hg'
          · exact ⟨t, hl, ha.1, ha.2⟩
          · exact ih h g hg'
        next ha => cases h
      next hr => cases h

lemma cuDNNIsValid_ok_false (sc : Scope) :
    ∀ (fs : List String), cuDNNIsValid sc fs = .ok false →
      ∃ f ∈ fs, ∃ t, lookupK sc f = some t ∧
        ¬(t.dims.getD 0 0 % 8 = 0 ∧ t.dims.getD 1 0 % 8 = 0) := by
  intro fs
  induction fs with
  | nil => intro h; cases h
  | cons f fs ih =>
    intro h
    rw [cuDNNIsValid] at h
    split at h
    next hl => cases h
    next t hl =>
      split at h
      next hr =>
        split at h
        next ha =>
          obtain ⟨g, hg, t', ht', hbad⟩ := ih h
          exact ⟨g, List.mem_cons_of_mem f hg, t', ht', hbad⟩
        next ha =>
          refine ⟨f, List.mem_cons_self f fs, t, hl, ?_⟩
          simp only [Bool.and_eq_true, beq_iff_eq] at ha
          exact fun hc => ha ⟨hc.1, hc.2⟩
      next hr => cases h

lemma classifyAux_ok_cudnn (sc : Scope) (uc : Bool) :
    ∀ (l : List (Nat × OpDesc)) (acc : List Nat × WeightsShared) (r : List Nat × WeightsShared),
      classifyOpsAux sc uc acc l = .ok r →
      ∀ p ∈ l, matchesTarget p.2 = true →
        ∃ b, cuDNNIsValid sc (p.2.input "Filter") = .ok b := by
  intro l
  induction l with
  | nil => intro _ _ _ p hp; cases hp
  | cons q rest ih =>
    intro acc r h p hp hm
    rw [classifyOpsAux] at h
    split at h
    next e hstep => cases h
    next acc' hstep =>
      rcases List.mem_cons.mp hp with rfl | hp'
      · unfold classifyStep at hstep
        rw [if_pos hm] at hstep
        split at hstep
        next e hc => cases hstep
        next b hc => exact ⟨b, hc⟩
      · exact ih acc' r h p hp' hm

lemma classifyAux_mem (sc : Scope) (uc : Bool) :
    ∀ (l : List (Nat × OpDesc)) (acc : List Nat × WeightsShared) (r : List Nat × WeightsShared),
      classifyOpsAux sc uc acc l = .ok r → ∀ i,
      (i ∈ r.1 ↔ i ∈ acc.1 ∨ ∃ d, (i, d) ∈ l ∧ stepEligible sc uc d) := by
  intro l
  induction l with
  | nil =>
    intro acc r h i
    rw [classifyOpsAux] at h
    cases h
    simp
  | cons q rest ih =>
    intro acc r h i
    rw [classifyOpsAux] at h
    split at h
    next e hstep => cases h
    next acc' hstep =>
      have hrec := ih acc' r h i
      by_cases hm : matchesTarget q.2 = true
      · unfold classifyStep at hstep
        rw [if_pos hm] at hstep
        split at hstep
        next e hc => cases hstep
        next b hc =>
          by_cases hcb : (b || CutlassIsValid uc q.2) = true
          · rw [if_pos hcb] at hstep
            cases hstep
            rw [hrec]
            simp only [mem_setInsert]
            constructor
            · rintro ((hi | rfl) | ⟨d, hd, hse⟩)
              · exact Or.inl hi
              · refine Or.inr ⟨q.2, ?_, hm, b, hc, ?_⟩
                · exact List.mem_cons_self q rest
                · simpa using hcb
              · exact Or.inr ⟨d, List.mem_cons_of_mem _ hd, hse⟩
            · rintro (hi | ⟨d, hd, hse⟩)
              · exact Or.inl (Or.inl hi)
              · rcases List.mem_cons.mp hd with heq | hd'
                · exact Or.inl (Or.inr (congrArg Prod.fst heq))
                · exact Or.inr ⟨d, hd', hse⟩
          · rw [if_neg hcb] at hstep
            cases hstep
            rw [hrec]
            constructor
            · rintro (hi | ⟨d, hd, hse⟩)
              · exact Or.inl hi
              · exact Or.inr ⟨d, List.mem_cons_of_mem _ hd, hse⟩
            · rintro (hi | ⟨d, hd, hse⟩)
              · exact Or.inl hi
              · rcases List.mem_cons.mp hd with heq | hd'
                · exfalso
                  have hd2 : d = q.2 := congrArg Prod.snd heq
                  subst hd2
                  obtain ⟨_, b', hb', hor⟩ := hse
                  rw [hc] at hb'
                  cases hb'
                  rcases hor with rfl | hcut
                  · exact hcb (by simp)
                  · exact hcb (by simp [hcut])
                · exact Or.inr ⟨d, hd', hse⟩
      · have hid : classifyStep sc uc acc q = .ok acc := by
          unfold classifyStep
          rw [if_neg hm]
        rw [hid] at hstep
        cases hstep
        rw [hrec]
        constructor
        · rintro (hi | ⟨d, hd, hse⟩)
          · exact Or.inl hi
          · exact Or.inr ⟨d, List.mem_cons_of_mem _ hd, hse⟩
        · rintro (hi | ⟨d, hd, hse⟩)
          · exact Or.inl hi
          · rcases List.mem_cons.mp hd with heq | hd'
            · exfalso
              have hd2 : d = q.2 := congrArg Prod.snd heq
              subst hd2
              exact hm hse.1
            · exact Or.inr ⟨d, hd', hse⟩

lemma stepEligible_iff (sc : Scope) (uc : Bool) (d : OpDesc)
    (hwt : attrsWellTyped d)
    (hb : matchesTarget d = true → ∃ b, cuDNNIsValid sc (d.input "Filter") = .ok b) :
    stepEligible sc uc d ↔ eligibleSpecP sc uc d := by
  constructor
  · rintro ⟨hm, b, hcb, hor⟩
    obtain ⟨ht, hf⟩ := (matchesTarget_iff d hwt).mp hm
    refine ⟨ht, hf, ?_⟩
    rcases hor with rfl | hcut
    · left
      intro f hfmem
      obtain ⟨t, hl, h0, h1⟩ := cuDNNIsValid_ok_true sc _ hcb f hfmem
      exact ⟨t, hl, by omega, by omega⟩
    · right
      exact (CutlassIsValid_iff uc d hwt).mp hcut
  · rintro ⟨ht, hf, hor⟩
    have hm : matchesTarget d = true := (matchesTarget_iff d hwt).mpr ⟨ht, hf⟩
    obtain ⟨b, hcb⟩ := hb hm
    refine ⟨hm, b, hcb, ?_⟩
    rcases hor with hp1 | hp2
    · cases b with
      | true => exact Or.inl rfl
      | false =>
        exfalso
        obtain ⟨f, hfmem, t, hl, hbad⟩ := cuDNNIsValid_ok_false sc _ hcb
        obtain ⟨t', hl', h0, h1⟩ := hp1 f hfmem
        rw [hl] at hl'
        cases hl'
        exact hbad ⟨by omega, by omega⟩
    · exact Or.inr ((CutlassIsValid_iff uc d hwt).mpr hp2)

lemma getAttr_setAttr_self (d : OpDesc) (k : String) (v : AttrVal) :
    (d.setAttr k v).getAttr k = some v := by
  unfold OpDesc.setAttr OpDesc.getAttr
  by_cases h : (lookupK d.attrs k).isSome = true
  · rw [if_pos h]
    show lookupK (updateK d.attrs k v) k = some v
    rw [lookupK_updateK_self, if_pos h]
  · rw [if_neg h]
    show lookupK (d.attrs ++ [(k, v)]) k = some v
    rw [lookupK_append]
    cases hl : lookupK d.attrs k with
    | some w => rw [hl] at h; exact absurd rfl h
    | none => simp [lookupK_cons, lookupK]

lemma getAttr_setAttr_ne (d : OpDesc) (k k' : String) (v : AttrVal) (h : ¬(k' = k)) :
    (d.setAttr k v).getAttr k' = d.getAttr k' := by
  unfold OpDesc.setAttr OpDesc.getAttr
  by_cases hs : (lookupK d.attrs k).isSome = true
  · rw [if_pos hs]
    exact lookupK_updateK_ne _ _ _ _ h
  · rw [if_neg hs]
    show lookupK (d.attrs ++ [(k, v)]) k' = lookupK d.attrs k'
    rw [lookupK_append]
    cases hl : lookupK d.attrs k' with
    | some w => rfl
    | none =>
      have hke : (k == k') = false := beq_eq_false_iff_ne.mpr (fun he => h he.symm)
      simp [lookupK_cons, hke, lookupK]

lemma lookupK_update_of_present {κ α : Type} [BEq κ] [LawfulBEq κ] (l : List (κ × α)) (k : κ) (v w : α)
    (h : lookupK l k = some w) : lookupK (updateK l k v) k = some v := by
  show lookupK (updateK l k v) k = some v
  rw [lookupK_updateK_self]
  rw [show lookupK l k = some w from h]
  rfl

lemma mem_setErase (l : List Nat) (i x : Nat) : x ∈ setErase l i ↔ x ∈ l ∧ x ≠ i := by
  simp [setErase]

lemma eraseGroup_subset (gl : List Nat) :
    ∀ (v : List Nat) (x : Nat), x ∈ gl.foldl setErase v → x ∈ v := by
  induction gl with
  | nil => intro v x h; exact h
  | cons y rest ih =>
    intro v x h
    have := ih (setErase v y) x h
    exact ((mem_setErase v y x).mp this).1

lemma eraseGroup_not_mem (gl : List Nat) :
    ∀ (v : List Nat) (x : Nat), x ∈ gl → x ∉ gl.foldl setErase v := by
  induction gl with
  | nil => intro v x h; cases h
  | cons y rest ih =>
    intro v x hx hmem
    rcases List.mem_cons.mp hx with rfl | hx'
    · have := eraseGroup_subset rest (setErase v x) x hmem
      exact ((mem_setErase v x x).mp this).2 rfl
    · exact ih (setErase v y) x hx' hmem

lemma eraseGroup_keep (gl : List Nat) :
    ∀ (v : List Nat) (x : Nat), x ∈ v → x ∉ gl → x ∈ gl.foldl setErase v := by
  induction gl with
  | nil => intro v x h _; exact h
  | cons y rest ih =>
    intro v x hv hx
    have hxy : x ≠ y := fun h => hx (h ▸ List.mem_cons_self y rest)
    exact ih (setErase v y) x ((mem_setErase v y x).mpr ⟨hv, hxy⟩)
      (fun h => hx (List.mem_cons_of_mem y h))

lemma filterOne_subset (ws : WeightsShared) (v : List Nat) (f : String) (x : Nat)
    (h : x ∈ filterOne ws v f) : x ∈ v := by
  unfold filterOne at h
  split at h
  · exact eraseGroup_subset _ v x h
  · exact h

lemma innerFold_subset (ws : WeightsShared) :
    ∀ (fl : List String) (v : List Nat) (x : Nat), x ∈ fl.foldl (filterOne ws) v → x ∈ v := by
  intro fl
  induction fl with
  | nil => intro v x h; exact h
  | cons f rest ih =>
    intro v x h
    exact filterOne_subset ws v f x (ih (filterOne ws v f) x h)

lemma filterStep_subset (ws : WeightsShared) (valid : List Nat) (p : Nat × OpDesc) (x : Nat)
    (h : x ∈ filterStep ws valid p) : x ∈ valid := by
  unfold filterStep at h
  split at h
  · exact innerFold_subset ws _ valid x h
  · exact h

lemma filterFold_subset (ws : WeightsShared) :
    ∀ (l : List (Nat × OpDesc)) (v : List Nat) (x : Nat), x ∈ l.foldl (filterStep ws) v → x ∈ v := by
  intro l
  induction l with
  | nil => intro v x h; exact h
  | cons p rest ih =>
    intro v x h
    exact filterStep_subset ws v p x (ih (filterStep ws v p) x h)

lemma wsGroup_append (a b : WeightsShared) (f : String) :
    wsGroup (a ++ b) f = wsGroup a f ++ wsGroup b f := by
  unfold wsGroup
  rw [List.filter_append, List.map_append]

lemma wsGroup_cons (p : String × Nat) (ws : WeightsShared) (f : String) :
    wsGroup (p :: ws) f = (if p.1 = f then [p.2] else []) ++ wsGroup ws f := by
  unfold wsGroup
  rw [List.filter_cons]
  by_cases h : p.1 = f
  · have h2 : (p.1 == f) = true := beq_iff_eq.mpr h
    simp [h, h2]
  · have h2 : (p.1 == f) = false := beq_eq_false_iff_ne.mpr h
    simp [h, h2]

lemma mem_wsGroup_push (filters : List String) (i : Nat) (f : String) (n : Nat) :
    n ∈ wsGroup (filters.map (fun f' => (f', i))) f ↔ (n = i ∧ f ∈ filters) := by
  induction filters with
  | nil => simp [wsGroup]
  | cons g rest ih =>
    rw [List.map_cons, wsGroup_cons]
    by_cases hgf : g = f
    · rw [if_pos hgf, List.singleton_append, List.mem_cons, ih]
      constructor
      · rintro (h | ⟨h1, h2⟩)
        · exact ⟨h, List.mem_cons.mpr (Or.inl hgf.symm)⟩
        · exact ⟨h1, List.mem_cons_of_mem g h2⟩
      · rintro ⟨h1, _⟩
        exact Or.inl h1
    · rw [if_neg hgf, List.nil_append, ih]
      constructor
      · rintro ⟨h1, h2⟩
        exact ⟨h1, List.mem_cons_of_mem g h2⟩
      · rintro ⟨h1, h2⟩
        rcases List.mem_cons.mp h2 with h3 | h3
        · exact absurd h3 (fun he => hgf he.symm)
        · exact ⟨h1, h3⟩

lemma classifyAux_ws_mem (sc : Scope) (uc : Bool) :
    ∀ (l : List (Nat × OpDesc)) (acc : List Nat × WeightsShared) (r : List Nat × WeightsShared),
      classifyOpsAux sc uc acc l = .ok r → ∀ (f : String) (n : Nat),
      (n ∈ wsGroup r.2 f ↔ n ∈ wsGroup acc.2 f ∨
        ∃ d, (n, d) ∈ l ∧ matchesTarget d = true ∧ f ∈ d.input "Filter") := by
  intro l
  induction l with
  | nil =>
    intro acc r h f n
    rw [classifyOpsAux] at h
    cases h
    simp
  | cons q rest ih =>
    intro acc r h f n
    rw [classifyOpsAux] at h
    split at h
    next e hstep => cases h
    next acc' hstep =>
      have hrec := ih acc' r h f n
      by_cases hm : matchesTarget q.2 = true
      · unfold classifyStep at hstep
        rw [if_pos hm] at hstep
        split at hstep
        next e hc => cases hstep
        next b hc =>
          have hws : acc'.2 = acc.2 ++ (q.2.input "Filter").map (fun g => (g, q.1)) := by
            by_cases hcb : (b || CutlassIsValid uc q.2) = true
            · rw [if_pos hcb] at hstep
              cases hstep
              rfl
            · rw [if_neg hcb] at hstep
              cases hstep
              rfl
          rw [hrec, hws, wsGroup_append]
          constructor
          · rintro (hin | ⟨d, hd, hmt, hf⟩)
            · rcases List.mem_append.mp hin with h1 | h1
              · exact Or.inl h1
              · obtain ⟨rfl, hfin⟩ := (mem_wsGroup_push _ _ _ _).mp h1
                exact Or.inr ⟨q.2, List.mem_cons_self q rest, hm, hfin⟩
            · exact Or.inr ⟨d, List.mem_cons_of_mem q hd, hmt, hf⟩
          · rintro (hin | ⟨d, hd, hmt, hf⟩)
            · exact Or.inl (List.mem_append.mpr (Or.inl hin))
            · rcases List.mem_cons.mp hd with heq | hd'
              · have h1 : n = q.1 := congrArg Prod.fst heq
                have h2 : d = q.2 := congrArg Prod.snd heq
                subst h1
                subst h2
                exact Or.inl (List.mem_append.mpr (Or.inr ((mem_wsGroup_push _ _ _ _).mpr ⟨rfl, hf⟩)))
              · exact Or.inr ⟨d, hd', hmt, hf⟩
      · have hid : classifyStep sc uc acc q = .ok acc := by
          unfold classifyStep
          rw [if_neg hm]
        rw [hid] at hstep
        cases hstep
        rw [hrec]
        constructor
        · rintro (hin | ⟨d, hd, hmt, hf⟩)
          · exact Or.inl hin
          · exact Or.inr ⟨d, List.mem_cons_of_mem q hd, hmt, hf⟩
        · rintro (hin | ⟨d, hd, hmt, hf⟩)
          · exact Or.inl hin
          · rcases List.mem_cons.mp hd with heq | hd'
            · exfalso
              have h2 : d = q.2 := congrArg Prod.snd heq
              subst h2
              exact hm hmt
            · exact Or.inr ⟨d, hd', hmt, hf⟩

lemma eq_singleton_of_len_le_one {α : Type} (l : List α) (a : α)
    (h1 : l.length ≤ 1) (h2 : a ∈ l) : l = [a] := by
  cases l with
  | nil => cases h2
  | cons x rest =>
    cases rest with
    | nil =>
      rcases List.mem_cons.mp h2 with rfl | h3
      · rfl
      · cases h3
    | cons y rest2 => simp at h1

lemma innerFold_keep (ws : WeightsShared) (f : String)
    (hsep : ∀ (f' : String) (x : Nat), x ∈ wsGroup ws f' → x ∈ wsGroup ws f → f' = f) :
    ∀ (fl : List String) (v : List Nat),
      (∀ x ∈ wsGroup ws f, x ∈ v) →
      ∀ x ∈ wsGroup ws f, x ∈ fl.foldl (filterOne ws) v := by
  intro fl
  induction fl with
  | nil => intro v hall x hx; exact hall x hx
  | cons f' rest ih =>
    intro v hall x hx
    apply ih (filterOne ws v f') ?_ x hx
    intro y hy
    unfold filterOne
    by_cases hff : f' = f
    · subst hff
      have hcond : ((wsGroup ws f').any fun n => !(v.contains n)) = false := by
        rw [List.any_eq_false]
        intro z hz
        have hzv := hall z hz
        simp [hzv]
      rw [hcond]
      simp only [Bool.false_eq_true, if_false]
      exact hall y hy
    · split
      · apply eraseGroup_keep
        · exact hall y hy
        · intro hyg
          exact hff (hsep f' y hyg hy)
      · exact hall y hy

lemma eraseFull_keep (ws : WeightsShared) (f : String)
    (hsep : ∀ (f' : String) (x : Nat), x ∈ wsGroup ws f' → x ∈ wsGroup ws f → f' = f) :
    ∀ (l : List (Nat × OpDesc)) (v : List Nat),
      (∀ x ∈ wsGroup ws f, x ∈ v) →
      ∀ x ∈ wsGroup ws f, x ∈ l.foldl (filterStep ws) v := by
  intro l
  induction l with
  | nil => exact fun v hall x hx => hall x hx
  | cons p rest ih =>
    intro v hall x hx
    apply ih (filterStep ws v p) ?_ x hx
    intro y hy
    unfold filterStep
    split
    · exact innerFold_keep ws f hsep _ v hall y hy
    · exact hall y hy

lemma eraseFull_kill (ws : WeightsShared) (f : String) (m0 : Nat) (hm0 : m0 ∈ wsGroup ws f) :
    ∀ (l : List (Nat × OpDesc)) (v : List Nat),
      (l.map Prod.fst).Nodup →
      ((∀ x ∈ wsGroup ws f, x ∉ v) ∨
       ((∀ x ∈ wsGroup ws f, x ∈ v → ∃ d, (x, d) ∈ l ∧ d.input "Filter" = [f]) ∧ m0 ∉ v)) →
      ∀ x ∈ wsGroup ws f, x ∉ l.foldl (filterStep ws) v := by
  intro l
  induction l with
  | nil =>
    intro v _ hinv x hx
    rcases hinv with h | ⟨h1, _⟩
    · exact h x hx
    · intro hxv
      obtain ⟨d, hd, _⟩ := h1 x hx hxv
      cases hd
  | cons p rest ih =>
    intro v hnd hinv x hx
    have hnd' : p.1 ∉ rest.map Prod.fst ∧ (rest.map Prod.fst).Nodup := by
      simpa using hnd
    obtain ⟨hp1, hndR⟩ := hnd'
    rcases hinv with hdead | ⟨hI1, hm0v⟩
    · apply ih (filterStep ws v p) hndR (Or.inl ?_) x hx
      intro y hy hymem
      exact hdead y hy (filterStep_subset ws v p y hymem)
    · by_cases hpg : p.1 ∈ wsGroup ws f
      · by_cases hpv : p.1 ∈ v
        · have hfp : p.2.input "Filter" = [f] := by
            obtain ⟨d, hd, hdf⟩ := hI1 p.1 hpg hpv
            rcases List.mem_cons.mp hd with heq | hd'
            · have hdp : d = p.2 := congrArg Prod.snd heq
              rw [← hdp]
              exact hdf
            · exfalso
              exact hp1 (List.mem_map.mpr ⟨(p.1, d), hd', rfl⟩)
          have hstep : filterStep ws v p = filterOne ws v f := by
            unfold filterStep
            rw [if_pos hpv, hfp]
            rfl
          have hkill : ∀ y ∈ wsGroup ws f, y ∉ filterStep ws v p := by
            intro y hy
            rw [hstep]
            unfold filterOne
            have hcond : ((wsGroup ws f).any fun n => !(v.contains n)) = true := by
              rw [List.any_eq_true]
              refine ⟨m0, hm0, ?_⟩
              simp [hm0v]
            rw [hcond]
            simp only [if_true]
            exact eraseGroup_not_mem _ v y hy
          exact ih (filterStep ws v p) hndR (Or.inl hkill) x hx
        · have hstep : filterStep ws v p = v := by
            unfold filterStep
            rw [if_neg hpv]
          apply ih (filterStep ws v p) hndR (Or.inr ⟨?_, ?_⟩) x hx
          · intro y hy hyv
            rw [hstep] at hyv
            obtain ⟨d, hd, hdf⟩ := hI1 y hy hyv
            rcases List.mem_cons.mp hd with heq | hd'
            · exfalso
              have hyp : y = p.1 := congrArg Prod.fst heq
              rw [hyp] at hyv
              exact hpv hyv
            · exact ⟨d, hd', hdf⟩
          · rw [hstep]
            exact hm0v
      · apply ih (filterStep ws v p) hndR (Or.inr ⟨?_, ?_⟩) x hx
        · intro y hy hyv
          have hyv0 : y ∈ v := filterStep_subset ws v p y hyv
          obtain ⟨d, hd, hdf⟩ := hI1 y hy hyv0
          rcases List.mem_cons.mp hd with heq | hd'
          · exfalso
            have hyp : y = p.1 := congrArg Prod.fst heq
            rw [hyp] at hy
            exact hpg hy
          · exact ⟨d, hd', hdf⟩
        · intro hm0v'
          exact hm0v (filterStep_subset ws v p m0 hm0v')

lemma inputsOf_append_single (e : List (Nat × Nat)) (a b x : Nat) :
    inputsOf (e ++ [(a, b)]) x = inputsOf e x ++ (if b = x then [a] else []) := by
  unfold inputsOf
  rw [List.filter_append, List.map_append]
  congr 1
  by_cases h : b = x
  · simp [h]
  · simp [h]

lemma inputsOf_of_no_target (e : List (Nat × Nat)) (x : Nat) (h : ∀ p ∈ e, ¬(p.2 = x)) :
    inputsOf e x = [] := by
  unfold inputsOf
  have : e.filter (fun p => p.2 == x) = [] := by
    rw [List.filter_eq_nil_iff]
    intro p hp
    simp [h p hp]
  rw [this]
  rfl

lemma inputsOf_unlink_ne (e : List (Nat × Nat)) (a b x : Nat) (h : ¬(b = x)) :
    inputsOf (unlinkEdge e a b) x = inputsOf e x := by
  unfold inputsOf unlinkEdge
  rw [List.filter_filter]
  congr 1
  apply List.filter_congr
  intro p _
  by_cases hx : (p.2 == x) = true
  · have hpx : p.2 = x := eq_of_beq hx
    have hb : (p.2 == b) = false := by
      rw [hpx]
      exact beq_eq_false_iff_ne.mpr (fun he => h he.symm)
    simp [hx, hb]
  · simp [hx]

lemma mem_linkTo (e : List (Nat × Nat)) (a b : Nat) (p : Nat × Nat) :
    p ∈ linkTo e a b ↔ p ∈ e ∨ p = (a, b) := by
  simp [linkTo]

lemma mem_unlinkEdge (e : List (Nat × Nat)) (a b : Nat) (p : Nat × Nat) :
    p ∈ unlinkEdge e a b ↔ p ∈ e ∧ ¬(p.1 = a ∧ p.2 = b) := by
  simp only [unlinkEdge, List.mem_filter, Bool.not_eq_true', Bool.and_eq_false_iff,
    beq_eq_false_iff_ne, ne_eq, not_and]
  constructor
  · rintro ⟨hp, h1 | h2⟩
    · exact ⟨hp, fun ha _ => h1 ha⟩
    · exact ⟨hp, fun _ hb => h2 hb⟩
  · rintro ⟨hp, himp⟩
    refine ⟨hp, ?_⟩
    by_cases ha : p.1 = a
    · exact Or.inr (himp ha)
    · exact Or.inl ha

lemma count_linkTo (e : List (Nat × Nat)) (a b : Nat) (p : Nat × Nat) :
    (linkTo e a b).count p = e.count p + (if (a, b) = p then 1 else 0) := by
  unfold linkTo
  rw [List.count_append]
  by_cases h : (a, b) = p
  · simp [h, List.count_singleton]
  · have : ((a, b) == p) = false := beq_eq_false_iff_ne.mpr h
    simp [List.count_cons, this, h]

lemma count_unlinkEdge_ne (e : List (Nat × Nat)) (a b : Nat) (p : Nat × Nat)
    (h : ¬(p = (a, b))) : (unlinkEdge e a b).count p = e.count p := by
  unfold unlinkEdge
  induction e with
  | nil => rfl
  | cons q rest ih =>
    by_cases hq : (q.1 == a && q.2 == b) = true
    · have hqe : q = (a, b) := by
        obtain ⟨h1, h2⟩ := Bool.and_eq_true .. ▸ hq
        have e1 : q.1 = a := eq_of_beq h1
        have e2 : q.2 = b := eq_of_beq h2
        cases q
        simp_all
      have hqp : (q == p) = false := by
        rw [hqe]
        exact beq_eq_false_iff_ne.mpr (fun he => h he.symm)
      rw [List.filter_cons_of_neg (by simp [hq])]
      rw [List.count_cons, ih]
      simp [hqp]
    · rw [List.filter_cons_of_pos (by simp [hq])]
      rw [List.count_cons, List.count_cons, ih]

lemma insert_create_spec (prevId nextId : Nat) (fromL toL : DataLayout)
    (st : CState) (pd : VarDesc) (nd : OpDesc) (outName : String)
    (hdir : (fromL = .kNCHW ∧ toL = .kNHWC ∧ outName = pd.name ++ "_nchw_to_nhwc") ∨
            (fromL = .kNHWC ∧ toL = .kNCHW ∧ outName = pd.name ++ "_nhwc_to_nchw"))
    (hprev : lookupK st.varDescs prevId = some pd)
    (hcache : lookupK st.cache prevId = none)
    (hnext : lookupK (st.opDescs ++ [(st.nextId, convOpDesc pd outName fromL toL)]) nextId = some nd)
    (hvfresh : lookupK st.varDescs (st.nextId + 1) = none)
    (hefresh : ∀ p ∈ st.edges, ¬(p.2 = st.nextId + 1)) :
    InsertLayoutTransOp prevId nextId fromL toL st = .ok
      { st with
        calls := st.calls ++ [(prevId, fromL, toL)],
        opDescs := updateK (st.opDescs ++ [(st.nextId, convOpDesc pd outName fromL toL)]) nextId
          (nd.renameInput pd.name (convOutDesc st.block outName pd fromL).name),
        varDescs := st.varDescs ++ [(st.nextId + 1, convOutDesc st.block outName pd fromL)],
        block := blockPut st.block outName (convOutDesc st.block outName pd fromL),
        edges := unlinkEdge (linkTo (linkTo (linkTo st.edges st.nextId (st.nextId + 1)) prevId st.nextId)
          (st.nextId + 1) nextId) prevId nextId,
        cache := st.cache ++ [(prevId, st.nextId + 1)],
        nextId := st.nextId + 2 } := by
  have hinp : inputsOf (linkTo st.edges st.nextId (st.nextId + 1)) (st.nextId + 1) = [st.nextId] := by
    unfold linkTo
    rw [inputsOf_append_single, inputsOf_of_no_target st.edges _ hefresh]
    simp
  rcases hdir with ⟨rfl, rfl, rfl⟩ | ⟨rfl, rfl, rfl⟩ <;>
  · simp only [InsertLayoutTransOp, doInsert, hprev, hcache, Option.isNone_none, if_true,
      lookupK_append, lookupK_cons, hvfresh, hnext, hinp, beq_self_eq_true, List.head?_cons]
    simp [lookupK_cons]

lemma insert_hit_spec (prevId nextId : Nat) (fromL toL : DataLayout)
    (st : CState) (pd : VarDesc) (vId : Nat) (vd : VarDesc) (nd : OpDesc) (c0 : Nat)
    (hdir : (fromL = .kNCHW ∧ toL = .kNHWC) ∨ (fromL = .kNHWC ∧ toL = .kNCHW))
    (hprev : lookupK st.varDescs prevId = some pd)
    (hcache : lookupK st.cache prevId = some vId)
    (hv : lookupK st.varDescs vId = some vd)
    (hnext : lookupK st.opDescs nextId = some nd)
    (hfront : (inputsOf st.edges vId).head? = some c0) :
    InsertLayoutTransOp prevId nextId fromL toL st = .ok
      { st with
        calls := st.calls ++ [(prevId, fromL, toL)],
        opDescs := updateK st.opDescs nextId (nd.renameInput pd.name vd.name),
        edges := unlinkEdge (linkTo (linkTo st.edges prevId c0) vId nextId) prevId nextId } := by
  rcases hdir with ⟨rfl, rfl⟩ | ⟨rfl, rfl⟩ <;>
  · simp only [InsertLayoutTransOp, doInsert, hprev, hcache, Option.isNone_some, if_false,
      hv, hnext, hfront]
    simp [hcache, hv, hnext, hfront]

lemma lookupK_mem {α : Type} (l : List (Nat × α)) (k : Nat) (v : α)
    (h : lookupK l k = some v) : (k, v) ∈ l := by
  induction l with
  | nil => cases h
  | cons p rest ih =>
    rw [lookupK_cons] at h
    by_cases hk : (p.1 == k) = true
    · rw [if_pos hk] at h
      injection h with h
      have h1 : p.1 = k := eq_of_beq hk
      cases p with
      | mk a b =>
        simp only at h1 h
        subst h1
        subst h
        exact List.mem_cons_self _ _
    · rw [if_neg hk] at h
      exact List.mem_cons_of_mem p (ih h)

lemma lookupK_none_of_bound {α : Type} (l : List (Nat × α)) (n m : Nat)
    (hb : ∀ p ∈ l, p.1 < n) (hm : n ≤ m) : lookupK l m = none := by
  induction l with
  | nil => rfl
  | cons p rest ih =>
    rw [lookupK_cons]
    have hf : (p.1 == m) = false := by
      have := hb p (List.mem_cons_self p rest)
      exact beq_eq_false_iff_ne.mpr (by omega)
    rw [hf]
    simp only [Bool.false_eq_true, if_false]
    exact ih (fun q hq => hb q (List.mem_cons_of_mem p hq))

lemma lookupK_append_left {κ α : Type} [BEq κ] (l l' : List (κ × α)) (k : κ) (v : α)
    (h : lookupK l k = some v) : lookupK (l ++ l') k = some v := by
  rw [lookupK_append, h]

lemma lookupK_append_right {κ α : Type} [BEq κ] (l l' : List (κ × α)) (k : κ)
    (h : lookupK l k = none) : lookupK (l ++ l') k = lookupK l' k := by
  rw [lookupK_append, h]

lemma runInserts_hits_spec (prevId : Nat) (fromL toL : DataLayout) (pd vd : VarDesc)
    (vId c0 : Nat)
    (hdir : (fromL = .kNCHW ∧ toL = .kNHWC) ∨ (fromL = .kNHWC ∧ toL = .kNCHW))
    (hpv : ¬(prevId = vId)) (hc0v : ¬(c0 = vId)) :
    ∀ (cs : List Nat) (st : CState),
      lookupK st.varDescs prevId = some pd →
      lookupK st.cache prevId = some vId →
      lookupK st.varDescs vId = some vd →
      (inputsOf st.edges vId).head? = some c0 →
      (∀ c ∈ cs, (lookupK st.opDescs c).isSome = true) →
      cs.Nodup →
      (∀ c ∈ cs, ¬(c = vId)) →
      (∀ c ∈ cs, ¬(c = c0)) →
      ∃ st', runInserts prevId fromL toL cs st = .ok st' ∧
        st'.scope = st.scope ∧ st'.varDescs = st.varDescs ∧ st'.block = st.block ∧
        st'.cache = st.cache ∧ st'.nhwcVars = st.nhwcVars ∧ st'.nextId = st.nextId ∧
        st'.calls = st.calls ++ cs.map (fun _ => (prevId, fromL, toL)) ∧
        st'.opDescs.length = st.opDescs.length ∧
        (∀ j, j ∉ cs → lookupK st'.opDescs j = lookupK st.opDescs j) ∧
        (∀ c ∈ cs, ∀ d0, lookupK st.opDescs c = some d0 →
           lookupK st'.opDescs c = some (d0.renameInput pd.name vd.name)) ∧
        st'.edges.count (prevId, c0) = st.edges.count (prevId, c0) + cs.length ∧
        (∀ p : Nat × Nat, p ∈ st.edges → ¬(p.1 = prevId) → p ∈ st'.edges) ∧
        (∀ c ∈ cs, (vId, c) ∈ st'.edges) := by
  intro cs
  induction cs with
  | nil =>
    intro st _ _ _ _ _ _ _ _
    exact ⟨st, rfl, rfl, rfl, rfl, rfl, rfl, rfl, by simp, rfl, fun j _ => rfl,
      fun c hc => absurd hc (List.not_mem_nil c), by simp, fun p hp _ => hp,
      fun c hc => absurd hc (List.not_mem_nil c)⟩
  | cons c rest ih =>
    intro st h1 h2 h3 h4 h5 h6 h7 h8
    obtain ⟨ndc, hndc⟩ := Option.isSome_iff_exists.mp (h5 c (List.mem_cons_self c rest))
    have hcV : ¬(c = vId) := h7 c (List.mem_cons_self c rest)
    have hcC0 : ¬(c = c0) := h8 c (List.mem_cons_self c rest)
    obtain ⟨hnX, hndR⟩ := List.nodup_cons.mp h6
    have hstep := insert_hit_spec prevId c fromL toL st pd vId vd ndc c0 hdir h1 h2 h3 hndc h4
    obtain ⟨st', hrun, hsc, hvd', hbl, hca, hnh, hni, hcl, hlen, hout, hren, hcount, hpres, hmemv⟩ :=
      ih { st with
            calls := st.calls ++ [(prevId, fromL, toL)],
            opDescs := updateK st.opDescs c (ndc.renameInput pd.name vd.name),
            edges := unlinkEdge (linkTo (linkTo st.edges prevId c0) vId c) prevId c }
        h1 h2 h3
        (by
          show (inputsOf (unlinkEdge (linkTo (linkTo st.edges prevId c0) vId c) prevId c) vId).head?
              = some c0
          rw [inputsOf_unlink_ne _ _ _ _ hcV]
          unfold linkTo
          rw [inputsOf_append_single, inputsOf_append_single, if_neg hc0v, if_neg hcV]
          simpa using h4)
        (by
          intro c' hc'
          show (lookupK (updateK st.opDescs c (ndc.renameInput pd.name vd.name)) c').isSome = true
          rw [lookupK_updateK_isSome]
          exact h5 c' (List.mem_cons_of_mem c hc'))
        hndR
        (fun c' hc' => h7 c' (List.mem_cons_of_mem c hc'))
        (fun c' hc' => h8 c' (List.mem_cons_of_mem c hc'))
    refine ⟨st', ?_, hsc, hvd', hbl, hca, hnh, hni, ?_, ?_, ?_, ?_, ?_, ?_, ?_⟩
    · rw [runInserts, hstep]
      exact hrun
    · rw [hcl]
      simp
    · rw [hlen]
      show (updateK st.opDescs c (ndc.renameInput pd.name vd.name)).length = _
      simp [updateK]
    · intro j hj
      have hj1 : j ∉ rest := fun h => hj (List.mem_cons_of_mem c h)
      have hj2 : ¬(j = c) := fun h => hj (h ▸ List.mem_cons_self c rest)
      rw [hout j hj1]
      show lookupK (updateK st.opDescs c (ndc.renameInput pd.name vd.name)) j = _
      exact lookupK_updateK_ne _ _ _ _ hj2
    · intro c' hc' d0 hd0
      rcases List.mem_cons.mp hc' with rfl | hc''
      · rw [hndc] at hd0
        injection hd0 with hd0
        subst hd0
        rw [hout c' hnX]
        exact lookupK_update_of_present st.opDescs c' _ ndc hndc
      · have hcne : ¬(c' = c) := fun h => hnX (h ▸ hc'')
        refine hren c' hc'' d0 ?_
        show lookupK (updateK st.opDescs c (ndc.renameInput pd.name vd.name)) c' = some d0
        rw [lookupK_updateK_ne _ _ _ _ hcne]
        exact hd0
    · rw [hcount]
      show (unlinkEdge (linkTo (linkTo st.edges prevId c0) vId c) prevId c).count (prevId, c0)
          + rest.length = _
      rw [count_unlinkEdge_ne _ _ _ _ (by
        intro h
        injection h with _ h2
        exact hcC0 h2.symm)]
      rw [count_linkTo, count_linkTo]
      have : ¬((vId, c) = ((prevId, c0) : Nat × Nat)) := by
        intro h
        injection h with ha _
        exact hpv ha.symm
      simp only [if_neg this, if_pos rfl]
      simp [List.length_cons]
      omega
    · intro p hp hp1
      refine hpres p ?_ hp1
      show p ∈ unlinkEdge (linkTo (linkTo st.edges prevId c0) vId c) prevId c
      rw [mem_unlinkEdge]
      refine ⟨?_, fun hc => absurd hc.1 hp1⟩
      rw [mem_linkTo, mem_linkTo]
      exact Or.inl (Or.inl hp)
    · intro c' hc'
      rcases List.mem_cons.mp hc' with rfl | hc''
      · refine hpres (vId, c') ?_ (fun h => hpv h.symm)
        show (vId, c') ∈ unlinkEdge (linkTo (linkTo st.edges prevId c0) vId c') prevId c'
        rw [mem_unlinkEdge]
        refine ⟨?_, fun hc => hpv hc.1.symm⟩
        rw [mem_linkTo]
        exact Or.inr rfl
      · exact hmemv c' hc''

lemma runInserts_master_spec (prevId : Nat) (pd : VarDesc) (fromL toL : DataLayout)
    (c0 : Nat) (rest : List Nat) (st0 st' : CState)
    (hdir : (fromL = .kNCHW ∧ toL = .kNHWC) ∨ (fromL = .kNHWC ∧ toL = .kNCHW))
    (hprev : lookupK st0.varDescs prevId = some pd)
    (hcache : lookupK st0.cache prevId = none)
    (hops : ∀ c ∈ c0 :: rest, (lookupK st0.opDescs c).isSome = true)
    (hnd : (c0 :: rest).Nodup)
    (hEb : ∀ p ∈ st0.edges, p.1 < st0.nextId ∧ p.2 < st0.nextId)
    (hVb : ∀ p ∈ st0.varDescs, p.1 < st0.nextId)
    (hcb : ∀ c ∈ c0 :: rest, c < st0.nextId)
    (hrun : runInserts prevId fromL toL (c0 :: rest) st0 = .ok st') :
    st'.opDescs.length = st0.opDescs.length + 1 ∧
    st'.varDescs.length = st0.varDescs.length + 1 ∧
    st'.cache = st0.cache ++ [(prevId, st0.nextId + 1)] ∧
    lookupK st'.varDescs (st0.nextId + 1) =
      some (convOutDesc st0.block (pd.name ++ dirSuffix fromL) pd fromL) ∧
    (∀ c ∈ c0 :: rest, ∀ d0, lookupK st0.opDescs c = some d0 →
       lookupK st'.opDescs c = some (d0.renameInput pd.name
         (convOutDesc st0.block (pd.name ++ dirSuffix fromL) pd fromL).name)) ∧
    st'.edges.count (prevId, st0.nextId) = (c0 :: rest).length ∧
    (∀ c ∈ c0 :: rest, (st0.nextId + 1, c) ∈ st'.edges) := by
  have hprevlt : prevId < st0.nextId := hVb (prevId, pd) (lookupK_mem st0.varDescs prevId pd hprev)
  have hc0lt : c0 < st0.nextId := hcb c0 (List.mem_cons_self c0 rest)
  obtain ⟨d0c, hd0c⟩ := Option.isSome_iff_exists.mp (hops c0 (List.mem_cons_self c0 rest))
  obtain ⟨hc0nr, hndR⟩ := List.nodup_cons.mp hnd
  have hdir3 : (fromL = .kNCHW ∧ toL = .kNHWC ∧
        (pd.name ++ dirSuffix fromL) = pd.name ++ "_nchw_to_nhwc") ∨
      (fromL = .kNHWC ∧ toL = .kNCHW ∧
        (pd.name ++ dirSuffix fromL) = pd.name ++ "_nhwc_to_nchw") := by
    rcases hdir with ⟨h1, h2⟩ | ⟨h1, h2⟩
    · exact Or.inl ⟨h1, h2, by rw [h1]; rfl⟩
    · exact Or.inr ⟨h1, h2, by rw [h1]; rfl⟩
  have hnext1 : lookupK (st0.opDescs ++
        [(st0.nextId, convOpDesc pd (pd.name ++ dirSuffix fromL) fromL toL)]) c0 = some d0c :=
    lookupK_append_left st0.opDescs _ c0 d0c hd0c
  have hvfresh : lookupK st0.varDescs (st0.nextId + 1) = none :=
    lookupK_none_of_bound st0.varDescs st0.nextId (st0.nextId + 1) hVb (by omega)
  have hefresh : ∀ p ∈ st0.edges, ¬(p.2 = st0.nextId + 1) := by
    intro p hp
    have := (hEb p hp).2
    omega
  have hcreate := insert_create_spec prevId c0 fromL toL st0 pd d0c (pd.name ++ dirSuffix fromL)
    hdir3 hprev hcache hnext1 hvfresh hefresh
  rw [runInserts] at hrun
  rw [hcreate] at hrun
  replace hrun : runInserts prevId fromL toL rest
      { st0 with
        calls := st0.calls ++ [(prevId, fromL, toL)],
        opDescs := updateK (st0.opDescs ++
            [(st0.nextId, convOpDesc pd (pd.name ++ dirSuffix fromL) fromL toL)]) c0
          (d0c.renameInput pd.name (convOutDesc st0.block (pd.name ++ dirSuffix fromL) pd fromL).name),
        varDescs := st0.varDescs ++
          [(st0.nextId + 1, convOutDesc st0.block (pd.name ++ dirSuffix fromL) pd fromL)],
        block := blockPut st0.block (pd.name ++ dirSuffix fromL)
          (convOutDesc st0.block (pd.name ++ dirSuffix fromL) pd fromL),
        edges := unlinkEdge (linkTo (linkTo (linkTo st0.edges st0.nextId (st0.nextId + 1))
          prevId st0.nextId) (st0.nextId + 1) c0) prevId c0,
        cache := st0.cache ++ [(prevId, st0.nextId + 1)],
        nextId := st0.nextId + 2 } = .ok st' := hrun
  obtain ⟨st2, hrun2, hsc, hvd', hbl, hca, hnh, hni, hcl, hlen, hout, hren, hcount, hpres, hmemv⟩ :=
    runInserts_hits_spec prevId fromL toL pd
      (convOutDesc st0.block (pd.name ++ dirSuffix fromL) pd fromL)
      (st0.nextId + 1) st0.nextId hdir (by omega) (by omega) rest
      { st0 with
        calls := st0.calls ++ [(prevId, fromL, toL)],
        opDescs := updateK (st0.opDescs ++
            [(st0.nextId, convOpDesc pd (pd.name ++ dirSuffix fromL) fromL toL)]) c0
          (d0c.renameInput pd.name (convOutDesc st0.block (pd.name ++ dirSuffix fromL) pd fromL).name),
        varDescs := st0.varDescs ++
          [(st0.nextId + 1, convOutDesc st0.block (pd.name ++ dirSuffix fromL) pd fromL)],
        block := blockPut st0.block (pd.name ++ dirSuffix fromL)
          (convOutDesc st0.block (pd.name ++ dirSuffix fromL) pd fromL),
        edges := unlinkEdge (linkTo (linkTo (linkTo st0.edges st0.nextId (st0.nextId + 1))
          prevId st0.nextId) (st0.nextId + 1) c0) prevId c0,
        cache := st0.cache ++ [(prevId, st0.nextId + 1)],
        nextId := st0.nextId + 2 }
      (lookupK_append_left st0.varDescs _ prevId pd hprev)
      (by
        show lookupK (st0.cache ++ [(prevId, st0.nextId + 1)]) prevId = some (st0.nextId + 1)
        rw [lookupK_append_right st0.cache _ prevId hcache, lookupK_cons]
        simp)
      (by
        show lookupK (st0.varDescs ++
            [(st0.nextId + 1, convOutDesc st0.block (pd.name ++ dirSuffix fromL) pd fromL)])
            (st0.nextId + 1) = _
        rw [lookupK_append_right st0.varDescs _ _ hvfresh, lookupK_cons]
        simp)
      (by
        show (inputsOf (unlinkEdge (linkTo (linkTo (linkTo st0.edges st0.nextId (st0.nextId + 1))
            prevId st0.nextId) (st0.nextId + 1) c0) prevId c0) (st0.nextId + 1)).head? =
            some st0.nextId
        rw [inputsOf_unlink_ne _ _ _ _ (by omega)]
        unfold linkTo
        rw [inputsOf_append_single, inputsOf_append_single, inputsOf_append_single,
          inputsOf_of_no_target st0.edges _ hefresh]
        rw [if_pos rfl, if_neg (by omega), if_neg (by omega)]
        rfl)
      (by
        intro c hc
        show (lookupK (updateK (st0.opDescs ++
            [(st0.nextId, convOpDesc pd (pd.name ++ dirSuffix fromL) fromL toL)]) c0
            (d0c.renameInput pd.name
              (convOutDesc st0.block (pd.name ++ dirSuffix fromL) pd fromL).name)) c).isSome = true
        rw [lookupK_updateK_isSome, lookupK_append]
        obtain ⟨dc, hdc⟩ := Option.isSome_iff_exists.mp (hops c (List.mem_cons_of_mem c0 hc))
        rw [hdc]
        rfl)
      hndR
      (by
        intro c hc
        have := hcb c (List.mem_cons_of_mem c0 hc)
        omega)
      (by
        intro c hc
        have := hcb c (List.mem_cons_of_mem c0 hc)
        omega)
  rw [hrun] at hrun2
  injection hrun2 with hst2
  subst hst2
  have hcount1 : (unlinkEdge (linkTo (linkTo (linkTo st0.edges st0.nextId (st0.nextId + 1))
      prevId st0.nextId) (st0.nextId + 1) c0) prevId c0).count (prevId, st0.nextId) = 1 := by
    rw [count_unlinkEdge_ne _ _ _ _ (by
      intro h
      injection h with _ h2
      omega)]
    rw [count_linkTo, count_linkTo, count_linkTo]
    have hz : st0.edges.count (prevId, st0.nextId) = 0 := by
      rw [List.count_eq_zero]
      intro hmem
      have := (hEb _ hmem).2
      omega
    rw [hz]
    rw [if_neg (by intro h; injection h with h1 _; omega),
      if_pos rfl, if_neg (by intro h; injection h with h1 _; omega)]
  refine ⟨?_, ?_, ?_, ?_, ?_, ?_, ?_⟩
  · rw [hlen]
    show (updateK (st0.opDescs ++
        [(st0.nextId, convOpDesc pd (pd.name ++ dirSuffix fromL) fromL toL)]) c0
        (d0c.renameInput pd.name
          (convOutDesc st0.block (pd.name ++ dirSuffix fromL) pd fromL).name)).length = _
    simp [updateK]
  · rw [hvd']
    show (st0.varDescs ++
        [(st0.nextId + 1, convOutDesc st0.block (pd.name ++ dirSuffix fromL) pd fromL)]).length = _
    simp
  · exact hca
  · rw [hvd']
    show lookupK (st0.varDescs ++
        [(st0.nextId + 1, convOutDesc st0.block (pd.name ++ dirSuffix fromL) pd fromL)])
        (st0.nextId + 1) = _
    rw [lookupK_append_right st0.varDescs _ _ hvfresh, lookupK_cons]
    simp
  · intro c hc d0 hd0
    rcases List.mem_cons.mp hc with rfl | hcr
    · rw [hd0c] at hd0
      injection hd0 with hd0
      subst hd0
      rw [hout c hc0nr]
      show lookupK (updateK (st0.opDescs ++
          [(st0.nextId, convOpDesc pd (pd.name ++ dirSuffix fromL) fromL toL)]) c
          (d0c.renameInput pd.name
            (convOutDesc st0.block (pd.name ++ dirSuffix fromL) pd fromL).name)) c = _
      exact lookupK_update_of_present _ c _ d0c hnext1
    · have hcne : ¬(c = c0) := fun h => hc0nr (h ▸ hcr)
      refine hren c hcr d0 ?_
      show lookupK (updateK (st0.opDescs ++
          [(st0.nextId, convOpDesc pd (pd.name ++ dirSuffix fromL) fromL toL)]) c0
          (d0c.renameInput pd.name
            (convOutDesc st0.block (pd.name ++ dirSuffix fromL) pd fromL).name)) c = some d0
      rw [lookupK_updateK_ne _ _ _ _ hcne]
      exact lookupK_append_left st0.opDescs _ c d0 hd0
  · rw [hcount]
    show (unlinkEdge (linkTo (linkTo (linkTo st0.edges st0.nextId (st0.nextId + 1))
        prevId st0.nextId) (st0.nextId + 1) c0) prevId c0).count (prevId, st0.nextId)
        + rest.length = (c0 :: rest).length
    rw [hcount1]
    simp [Nat.add_comm]
  · intro c hc
    rcases List.mem_cons.mp hc with rfl | hcr
    · refine hpres (st0.nextId + 1, c) ?_ (by simp; omega)
      show (st0.nextId + 1, c) ∈ unlinkEdge (linkTo (linkTo (linkTo st0.edges st0.nextId
          (st0.nextId + 1)) prevId st0.nextId) (st0.nextId + 1) c) prevId c
      rw [mem_unlinkEdge]
      refine ⟨?_, by simp; omega⟩
      rw [mem_linkTo]
      exact Or.inr rfl
    · exact hmemv c hcr

/-! ### Theorems -/

/-- C1: a node is inserted into the candidate set by the classification
loop if and only if its op type is the targeted kind, its data_format
attribute equals NCHW, and P1 (every Filter input resolves to a tensor
whose output-channel and input-channel dims are divisible by 8) or P2
(use_cudnn explicitly false and the use_cutlass policy flag set)
holds. -/
theorem classification_eligibility_iff (sc : Scope) (uc : Bool)
    (ops : List (Nat × OpDesc)) (valid : List Nat) (ws : WeightsShared)
    (i : Nat) (d : OpDesc)
    (hok : classifyOps sc uc ops = .ok (valid, ws))
    (hnd : (ops.map Prod.fst).Nodup)
    (hmem : (i, d) ∈ ops)
    (hwt : attrsWellTyped d) :
    i ∈ valid ↔ eligibleSpecP sc uc d := by
  have hm := classifyAux_mem sc uc ops ([], []) (valid, ws) hok i
  simp only [List.not_mem_nil, false_or] at hm
  have hb : matchesTarget d = true → ∃ b, cuDNNIsValid sc (d.input "Filter") = .ok b := by
    intro hmt
    exact classifyAux_ok_cudnn sc uc ops ([], []) (valid, ws) hok (i, d) hmem hmt
  constructor
  · intro hi
    obtain ⟨d', hd', hse⟩ := hm.mp hi
    have : d' = d := eq_of_mem_keyNodup hnd hd' hmem
    subst this
    exact (stepEligible_iff sc uc d' hwt hb).mp hse
  · intro he
    exact hm.mpr ⟨d, hmem, (stepEligible_iff sc uc d hwt hb).mpr he⟩

/-- The data_format attribute of `c1d` is a string and use_cudnn is
absent. -/
lemma c1d_wellTyped : attrsWellTyped c1d := by
  constructor
  · intro v hv
    refine ⟨"NCHW", ?_⟩
    have : some (AttrVal.strV "NCHW") = some v := by
      rw [← hv]; rfl
    injection this with h
    exact h.symm
  · intro v hv
    have : (none : Option AttrVal) = some v := by
      rw [← hv]; rfl
    cases this

/-- Witness for C1: node 7 with the aligned filter `w` is classified,
and the characterization applies. -/
theorem classification_eligibility_iff_witness :
    classifyOps c4sc false [(7, c1d)] = .ok ([7], [("w", 7)]) ∧
    (7 ∈ [7] ↔ eligibleSpecP c4sc false c1d) :=
  ⟨rfl,
   classification_eligibility_iff c4sc false [(7, c1d)] [7] [("w", 7)] 7 c1d rfl
     (by decide) (List.mem_singleton.mpr rfl) c1d_wellTyped⟩

/-- C5 amended: in the commit phase, use_cudnn is forced true (when
present) exactly for nodes taking the cuDNN branch — CutlassIsValid
false at commit time and cuDNNIsValid true; nodes on the Cutlass path,
in particular nodes satisfying both P1 and P2, keep their use_cudnn
value unchanged and receive the fuse_alpha default exactly when the
attribute is absent; data_format becomes NHWC in every case. -/
theorem commit_attrs_amended (uc : Bool) (opId : Nat) (st st' : CState) (d : OpDesc)
    (hd : lookupK st.opDescs opId = some d)
    (hok : commitAttrs uc opId st = .ok st') :
    ∃ d', lookupK st'.opDescs opId = some d' ∧
      (CutlassIsValid uc d = true →
        d'.getAttr "use_cudnn" = d.getAttr "use_cudnn" ∧
        d'.getAttr "fuse_alpha" =
          (if d.hasAttr "fuse_alpha" then d.getAttr "fuse_alpha" else some (.floatV 0))) ∧
      (CutlassIsValid uc d = false →
        d'.getAttr "fuse_alpha" = d.getAttr "fuse_alpha" ∧
        (cuDNNIsValid st.scope (d.input "Filter") = .ok true → d.hasAttr "use_cudnn" = true →
          d'.getAttr "use_cudnn" = some (.boolV true)) ∧
        (cuDNNIsValid st.scope (d.input "Filter") = .ok false →
          d'.getAttr "use_cudnn" = d.getAttr "use_cudnn")) ∧
      d'.getAttr "data_format" = some (.strV "NHWC") := by
  unfold commitAttrs at hok
  split at hok
  next hl => rw [hd] at hl; cases hl
  next d0 hl =>
    rw [hd] at hl
    injection hl with hl
    subst hl
    by_cases hcut : CutlassIsValid uc d = true
    · rw [if_pos hcut] at hok
      injection hok with hok
      subst hok
      refine ⟨_, lookupK_update_of_present st.opDescs opId _ d hd, ?_, ?_, ?_⟩
      · intro _
        constructor
        · rw [getAttr_setAttr_ne _ _ _ _ (by decide)]
          by_cases hfa : d.hasAttr "fuse_alpha" = true
          · rw [if_pos hfa]
          · rw [if_neg hfa, getAttr_setAttr_ne _ _ _ _ (by decide)]
        · rw [getAttr_setAttr_ne _ _ _ _ (by decide)]
          by_cases hfa : d.hasAttr "fuse_alpha" = true
          · rw [if_pos hfa, if_pos hfa]
          · rw [if_neg hfa, if_neg hfa, getAttr_setAttr_self]
      · intro hcf
        rw [hcut] at hcf
        cases hcf
      · rw [getAttr_setAttr_self]
    · rw [if_neg hcut] at hok
      have hcut' : CutlassIsValid uc d = false := by
        cases hcv : CutlassIsValid uc d
        · rfl
        · exact absurd hcv hcut
      split at hok
      next e hc => cases hok
      next hc =>
        injection hok with hok
        subst hok
        refine ⟨_, lookupK_update_of_present st.opDescs opId _ d hd, ?_, ?_, ?_⟩
        · intro hcc
          rw [hcut'] at hcc
          cases hcc
        · intro _
          refine ⟨?_, ?_, ?_⟩
          · rw [getAttr_setAttr_ne _ _ _ _ (by decide)]
            by_cases hua : d.hasAttr "use_cudnn" = true
            · rw [if_pos hua, getAttr_setAttr_ne _ _ _ _ (by decide)]
            · rw [if_neg hua]
          · intro _ hua
            rw [getAttr_setAttr_ne _ _ _ _ (by decide), if_pos hua, getAttr_setAttr_self]
          · intro hcf
            rw [hc] at hcf
            cases hcf
        · rw [getAttr_setAttr_self]
      next hc =>
        injection hok with hok
        subst hok
        refine ⟨_, lookupK_update_of_present st.opDescs opId _ d hd, ?_, ?_, ?_⟩
        · intro hcc
          rw [hcut'] at hcc
          cases hcc
        · intro _
          refine ⟨?_, ?_, ?_⟩
          · rw [getAttr_setAttr_ne _ _ _ _ (by decide)]
          · intro hct _
            rw [hc] at hct
            cases hct
          · intro _
            rw [getAttr_setAttr_ne _ _ _ _ (by decide)]
        · rw [getAttr_setAttr_self]

/-- Witness for C5 amended: a P1-only node with use_cudnn present gets
it forced true. -/
theorem commit_attrs_amended_witness :
    lookupK c5wSt.opDescs 21 = some c5wd ∧
    commitAttrs false 21 c5wSt = .ok c5wRes ∧
    (∃ d', lookupK c5wRes.opDescs 21 = some d' ∧
      (CutlassIsValid false c5wd = true →
        d'.getAttr "use_cudnn" = c5wd.getAttr "use_cudnn" ∧
        d'.getAttr "fuse_alpha" =
          (if c5wd.hasAttr "fuse_alpha" then c5wd.getAttr "fuse_alpha" else some (.floatV 0))) ∧
      (CutlassIsValid false c5wd = false →
        d'.getAttr "fuse_alpha" = c5wd.getAttr "fuse_alpha" ∧
        (cuDNNIsValid c5wSt.scope (c5wd.input "Filter") = .ok true → c5wd.hasAttr "use_cudnn" = true →
          d'.getAttr "use_cudnn" = some (.boolV true)) ∧
        (cuDNNIsValid c5wSt.scope (c5wd.input "Filter") = .ok false →
          d'.getAttr "use_cudnn" = c5wd.getAttr "use_cudnn")) ∧
      d'.getAttr "data_format" = some (.strV "NHWC")) :=
  ⟨rfl, rfl, commit_attrs_amended false 21 c5wSt c5wRes c5wd rfl rfl⟩

lemma shapeEditVars_spec (f : String) :
    ∀ (l : List Nat) (st : CState),
      (∀ v ∈ l, (lookupK st.varDescs v).isSome = true) → l.Nodup →
      ∃ st', shapeEditVars f l st = .ok st' ∧
        st'.scope = st.scope ∧ st'.opDescs = st.opDescs ∧ st'.edges = st.edges ∧
        st'.block = st.block ∧ st'.cache = st.cache ∧ st'.nhwcVars = st.nhwcVars ∧
        st'.nextId = st.nextId ∧ st'.calls = st.calls ∧
        (∀ v vd, lookupK st.varDescs v = some vd →
          ((v ∈ l ∧ vd.persistable = true ∧ vd.name = f) →
              lookupK st'.varDescs v = some { vd with shape := permNCHWtoNHWC vd.shape }) ∧
          ((v ∉ l ∨ vd.persistable = false ∨ ¬(vd.name = f)) →
              lookupK st'.varDescs v = some vd)) := by
  intro l
  induction l with
  | nil =>
    intro st _ _
    refine ⟨st, rfl, rfl, rfl, rfl, rfl, rfl, rfl, rfl, rfl, ?_⟩
    intro v vd hvd
    exact ⟨fun h => absurd h.1 (List.not_mem_nil v), fun _ => hvd⟩
  | cons v0 rest ih =>
    intro st hvars hnd
    obtain ⟨hv0n, hrestn⟩ := List.nodup_cons.mp hnd
    have hv0s := hvars v0 (List.mem_cons_self v0 rest)
    cases hvd0 : lookupK st.varDescs v0 with
    | none => rw [hvd0] at hv0s; cases hv0s
    | some vd0 =>
      by_cases hp : (vd0.persistable && vd0.name == f) = true
      · have hpers : vd0.persistable = true := (Bool.and_eq_true .. ▸ hp).1
        have hname : vd0.name = f := eq_of_beq (Bool.and_eq_true .. ▸ hp).2
        have hstep : shapeEditVars f (v0 :: rest) st =
            shapeEditVars f rest
              { st with varDescs := updateK st.varDescs v0 { vd0 with shape := permNCHWtoNHWC vd0.shape } } := by
          rw [shapeEditVars, hvd0]
          simp only [hp, if_true]
        obtain ⟨st', hrun, hsc, hop, hed, hbl, hca, hnh, hni, hcl, hprop⟩ :=
          ih { st with varDescs := updateK st.varDescs v0 { vd0 with shape := permNCHWtoNHWC vd0.shape } }
            (by
              intro v hv
              show (lookupK (updateK st.varDescs v0 _) v).isSome = true
              rw [lookupK_updateK_isSome]
              exact hvars v (List.mem_cons_of_mem v0 hv))
            hrestn
        refine ⟨st', by rw [hstep]; exact hrun, hsc, hop, hed, hbl, hca, hnh, hni, hcl, ?_⟩
        intro v vd hvd
        by_cases hvv : v = v0
        · subst hvv
          rw [hvd0] at hvd
          injection hvd with hvd
          subst hvd
          have hlook1 : lookupK (updateK st.varDescs v { vd0 with shape := permNCHWtoNHWC vd0.shape }) v =
              some { vd0 with shape := permNCHWtoNHWC vd0.shape } :=
            lookupK_update_of_present st.varDescs v _ vd0 hvd0
          constructor
          · intro _
            exact ((hprop v _ hlook1).2 (Or.inl hv0n))
          · intro hdisj
            rcases hdisj with hnm | hpf | hnf
            · exact absurd (List.mem_cons_self v rest) hnm
            · rw [hpers] at hpf; cases hpf
            · exact absurd hname hnf
        · have hlook1 : lookupK ({ st with varDescs := updateK st.varDescs v0 (
              { vd0 with shape := permNCHWtoNHWC vd0.shape } : VarDesc) } : CState).varDescs v = some vd := by
            show lookupK (updateK st.varDescs v0 _) v = some vd
            rw [lookupK_updateK_ne _ _ _ _ hvv]
            exact hvd
          have hpv := hprop v vd hlook1
          constructor
          · intro ⟨hm, h1, h2⟩
            exact hpv.1 ⟨(List.mem_cons.mp hm).resolve_left hvv, h1, h2⟩
          · intro hdisj
            refine hpv.2 ?_
            rcases hdisj with hnm | hpf | hnf
            · exact Or.inl (fun hvr => hnm (List.mem_cons_of_mem v0 hvr))
            · exact Or.inr (Or.inl hpf)
            · exact Or.inr (Or.inr hnf)
      · have hstep : shapeEditVars f (v0 :: rest) st = shapeEditVars f rest st := by
          rw [shapeEditVars, hvd0]
          simp only [hp]
          simp
        obtain ⟨st', hrun, hsc, hop, hed, hbl, hca, hnh, hni, hcl, hprop⟩ :=
          ih st (fun v hv => hvars v (List.mem_cons_of_mem v0 hv)) hrestn
        refine ⟨st', by rw [hstep]; exact hrun, hsc, hop, hed, hbl, hca, hnh, hni, hcl, ?_⟩
        intro v vd hvd
        by_cases hvv : v = v0
        · subst hvv
          rw [hvd0] at hvd
          injection hvd with hvd
          subst hvd
          constructor
          · intro ⟨_, h1, h2⟩
            exact absurd (by rw [h1, h2]; simp : (vd0.persistable && vd0.name == f) = true) hp
          · intro _
            exact (hprop v vd0 hvd0).2 (Or.inl hv0n)
        · have hpv := hprop v vd hvd
          constructor
          · intro ⟨hm, h1, h2⟩
            exact hpv.1 ⟨(List.mem_cons.mp hm).resolve_left hvv, h1, h2⟩
          · intro hdisj
            refine hpv.2 ?_
            rcases hdisj with hnm | hpf | hnf
            · exact Or.inl (fun hvr => hnm (List.mem_cons_of_mem v0 hvr))
            · exact Or.inr (Or.inl hpf)
            · exact Or.inr (Or.inr hnf)

/-- C4 amended: for a committed node and one of its filter names —
when the physical buffer is already NHWC the entire step is a no-op
(conversion and shape edit both skipped, so a later sharing node's
value-node shape is left unpermuted); when the buffer is still NCHW it
is converted and the declared shape of every distinct persistable
value-node input of this operator carrying the filter name is permuted
[n,c,h,w]→[n,h,w,c] exactly once, other value nodes unchanged. -/
theorem transfer_weights_amended (opId : Nat) (st : CState) (f : String) (t : Tensor)
    (hsc : lookupK st.scope f = some t)
    (hnd : (inputsOf st.edges opId).Nodup)
    (hvars : ∀ v ∈ inputsOf st.edges opId, (lookupK st.varDescs v).isSome = true) :
    (t.layout = .kNHWC → transferWeightsOne opId st f = .ok st) ∧
    (t.layout = .kNCHW →
      ∃ st', transferWeightsOne opId st f = .ok st' ∧
        lookupK st'.scope f = some (transDataLayoutNCHWtoNHWC t) ∧
        st'.edges = st.edges ∧
        (∀ v vd, lookupK st.varDescs v = some vd →
          ((v ∈ inputsOf st.edges opId ∧ vd.persistable = true ∧ vd.name = f) →
              lookupK st'.varDescs v = some { vd with shape := permNCHWtoNHWC vd.shape }) ∧
          ((v ∉ inputsOf st.edges opId ∨ vd.persistable = false ∨ ¬(vd.name = f)) →
              lookupK st'.varDescs v = some vd))) := by
  constructor
  · intro hlay
    rw [transferWeightsOne, hsc]
    simp [hlay]
  · intro hlay
    have hne : ¬(t.layout = DataLayout.kNHWC) := by
      rw [hlay]
      intro hcon
      cases hcon
    obtain ⟨st', hrun, hsc', hop, hed, hbl, hca, hnh, hni, hcl, hprop⟩ :=
      shapeEditVars_spec f (inputsOf st.edges opId)
        { st with scope := updateK st.scope f (transDataLayoutNCHWtoNHWC t) }
        (by intro v hv; exact hvars v hv) hnd
    refine ⟨st', ?_, ?_, hed, ?_⟩
    · have hgoal : transferWeightsOne opId st f =
          (if t.layout = DataLayout.kNHWC then Except.ok st
           else shapeEditVars f (inputsOf st.edges opId)
                  { st with scope := updateK st.scope f (transDataLayoutNCHWtoNHWC t) }) := by
        rw [transferWeightsOne, hsc]
      rw [hgoal, if_neg hne]
      exact hrun
    · rw [hsc']
      show lookupK (updateK st.scope f (transDataLayoutNCHWtoNHWC t)) f = _
      exact lookupK_update_of_present st.scope f _ t hsc
    · intro v vd hvd
      exact hprop v vd hvd

/-- Witness for C4 amended at the shared-filter graph: converting `w`
for node 10 permutes value node 1 and leaves other descriptors. -/
theorem transfer_weights_amended_witness :
    lookupK c4st.scope "w" = some (t4 16 16) ∧
    ((t4 16 16).layout = .kNHWC → transferWeightsOne 10 c4st "w" = .ok c4st) ∧
    ((t4 16 16).layout = .kNCHW →
      ∃ st', transferWeightsOne 10 c4st "w" = .ok st' ∧
        lookupK st'.scope "w" = some (transDataLayoutNCHWtoNHWC (t4 16 16)) ∧
        st'.edges = c4st.edges ∧
        (∀ v vd, lookupK c4st.varDescs v = some vd →
          ((v ∈ inputsOf c4st.edges 10 ∧ vd.persistable = true ∧ vd.name = "w") →
              lookupK st'.varDescs v = some { vd with shape := permNCHWtoNHWC vd.shape }) ∧
          ((v ∉ inputsOf c4st.edges 10 ∨ vd.persistable = false ∨ ¬(vd.name = "w")) →
              lookupK st'.varDescs v = some vd))) :=
  ⟨rfl,
   (transfer_weights_amended 10 c4st "w" (t4 16 16) rfl (by decide) (by decide)).1,
   (transfer_weights_amended 10 c4st "w" (t4 16 16) rfl (by decide) (by decide)).2⟩

/-- C3: for a producer value node with consumers c0 :: rest all
requiring the same conversion direction, invoking conversion insertion
once per consumer creates exactly one conversion operator node and
exactly one conversion output value node, stores the output in the
cache keyed by the producer, and renames every consumer's input
reference to that single cached output's name. -/
theorem insert_memoization (prevId : Nat) (pd : VarDesc) (fromL toL : DataLayout)
    (c0 : Nat) (rest : List Nat) (st0 st' : CState)
    (hdir : (fromL = .kNCHW ∧ toL = .kNHWC) ∨ (fromL = .kNHWC ∧ toL = .kNCHW))
    (hprev : lookupK st0.varDescs prevId = some pd)
    (hcache : lookupK st0.cache prevId = none)
    (hops : ∀ c ∈ c0 :: rest, (lookupK st0.opDescs c).isSome = true)
    (hnd : (c0 :: rest).Nodup)
    (hEb : ∀ p ∈ st0.edges, p.1 < st0.nextId ∧ p.2 < st0.nextId)
    (hVb : ∀ p ∈ st0.varDescs, p.1 < st0.nextId)
    (hcb : ∀ c ∈ c0 :: rest, c < st0.nextId)
    (hrun : runInserts prevId fromL toL (c0 :: rest) st0 = .ok st') :
    st'.opDescs.length = st0.opDescs.length + 1 ∧
    st'.varDescs.length = st0.varDescs.length + 1 ∧
    st'.cache = st0.cache ++ [(prevId, st0.nextId + 1)] ∧
    lookupK st'.varDescs (st0.nextId + 1) =
      some (convOutDesc st0.block (pd.name ++ dirSuffix fromL) pd fromL) ∧
    (∀ c ∈ c0 :: rest, ∀ d0, lookupK st0.opDescs c = some d0 →
       lookupK st'.opDescs c = some (d0.renameInput pd.name
         (convOutDesc st0.block (pd.name ++ dirSuffix fromL) pd fromL).name)) := by
  obtain ⟨a, b, c, d, e, _, _⟩ :=
    runInserts_master_spec prevId pd fromL toL c0 rest st0 st' hdir hprev hcache hops hnd
      hEb hVb hcb hrun
  exact ⟨a, b, c, d, e⟩

/-- Witness for C3: producer 0 with consumers 1, 2, 3. -/
theorem insert_memoization_witness :
    runInserts 0 .kNCHW .kNHWC [1, 2, 3] c3st = .ok c3Res ∧
    (c3Res.opDescs.length = c3st.opDescs.length + 1 ∧
     c3Res.varDescs.length = c3st.varDescs.length + 1 ∧
     c3Res.cache = c3st.cache ++ [(0, c3st.nextId + 1)] ∧
     lookupK c3Res.varDescs (c3st.nextId + 1) =
       some (convOutDesc c3st.block (c3pd.name ++ dirSuffix .kNCHW) c3pd .kNCHW) ∧
     (∀ c ∈ [1, 2, 3], ∀ d0, lookupK c3st.opDescs c = some d0 →
        lookupK c3Res.opDescs c = some (d0.renameInput c3pd.name
          (convOutDesc c3st.block (c3pd.name ++ dirSuffix .kNCHW) c3pd .kNCHW).name))) :=
  ⟨rfl,
   insert_memoization 0 c3pd .kNCHW .kNHWC 1 [2, 3] c3st c3Res
     (Or.inl ⟨rfl, rfl⟩) rfl rfl (by decide) (by decide) (by decide) (by decide) (by decide) rfl⟩

/-- C9: every invocation of conversion insertion, including cache hits,
appends a fresh producer→conversion-operator edge and a fresh
conversion-output→consumer edge, so a producer with N same-direction
consumers ends with N parallel edges to the single conversion operator
node. -/
theorem insert_parallel_edges (prevId : Nat) (pd : VarDesc) (fromL toL : DataLayout)
    (c0 : Nat) (rest : List Nat) (st0 st' : CState)
    (hdir : (fromL = .kNCHW ∧ toL = .kNHWC) ∨ (fromL = .kNHWC ∧ toL = .kNCHW))
    (hprev : lookupK st0.varDescs prevId = some pd)
    (hcache : lookupK st0.cache prevId = none)
    (hops : ∀ c ∈ c0 :: rest, (lookupK st0.opDescs c).isSome = true)
    (hnd : (c0 :: rest).Nodup)
    (hEb : ∀ p ∈ st0.edges, p.1 < st0.nextId ∧ p.2 < st0.nextId)
    (hVb : ∀ p ∈ st0.varDescs, p.1 < st0.nextId)
    (hcb : ∀ c ∈ c0 :: rest, c < st0.nextId)
    (hrun : runInserts prevId fromL toL (c0 :: rest) st0 = .ok st') :
    st'.edges.count (prevId, st0.nextId) = (c0 :: rest).length ∧
    (∀ c ∈ c0 :: rest, (st0.nextId + 1, c) ∈ st'.edges) := by
  obtain ⟨_, _, _, _, _, f, g⟩ :=
    runInserts_master_spec prevId pd fromL toL c0 rest st0 st' hdir hprev hcache hops hnd
      hEb hVb hcb hrun
  exact ⟨f, g⟩

/-- Witness for C9: the same three-consumer run ends with three
parallel edges from producer 0 to the conversion operator 50. -/
theorem insert_parallel_edges_witness :
    runInserts 0 .kNCHW .kNHWC [1, 2, 3] c3st = .ok c3Res ∧
    (c3Res.edges.count (0, c3st.nextId) = ([1, 2, 3] : List Nat).length ∧
     (∀ c ∈ [1, 2, 3], (c3st.nextId + 1, c) ∈ c3Res.edges)) :=
  ⟨rfl,
   insert_parallel_edges 0 c3pd .kNCHW .kNHWC 1 [2, 3] c3st c3Res
     (Or.inl ⟨rfl, rfl⟩) rfl rfl (by decide) (by decide) (by decide) (by decide) (by decide) rfl⟩

/-- C6: the two shape permutations used by the pass are mutual inverses:
for every 4-dimensional shape [N,C,H,W] with every entry at least 1,
applying the NCHW→NHWC permutation and then the NHWC→NCHW permutation
yields the original shape. -/
theorem perm_shapes_round_trip (N C H W : Int)
    (_hN : 1 ≤ N) (_hC : 1 ≤ C) (_hH : 1 ≤ H) (_hW : 1 ≤ W) :
    permNHWCtoNCHW (permNCHWtoNHWC [N, C, H, W]) = [N, C, H, W] := by
  simp [permNCHWtoNHWC, permNHWCtoNCHW]

/-- Witness for C6 at the concrete shape [2,16,3,5]. -/
theorem perm_shapes_round_trip_witness :
    (1 : Int) ≤ 2 ∧ (1 : Int) ≤ 16 ∧ (1 : Int) ≤ 3 ∧ (1 : Int) ≤ 5 ∧
    permNHWCtoNCHW (permNCHWtoNHWC [2, 16, 3, 5]) = [2, 16, 3, 5] :=
  ⟨by norm_num, by norm_num, by norm_num, by norm_num,
   perm_shapes_round_trip 2 16 3 5 (by norm_num) (by norm_num) (by norm_num) (by norm_num)⟩

/-- C7: when any precondition is violated (null graph, non-main graph,
or null parameter scope), the pass raises the corresponding
precondition error and the graph carried out is the untouched input:
the enforcements run before any node is visited or mutated. -/
theorem apply_precondition_unmutated (uc : Bool) (gopt : Option GState)
    (h : gopt = none ∨ ∃ g, gopt = some g ∧ (g.isMain = false ∨ g.scope = none)) :
    ApplyImpl uc gopt = .preErr .nullGraph gopt ∨
    ApplyImpl uc gopt = .preErr .notMainGraph gopt ∨
    ApplyImpl uc gopt = .preErr .nullScope gopt := by
  rcases h with h | ⟨g, hg, hviol⟩
  · subst h; left; rfl
  · subst hg
    rcases hviol with hm | hs
    · right; left; simp [ApplyImpl, hm]
    · cases hmain : g.isMain with
      | false => right; left; simp [ApplyImpl, hmain]
      | true => right; right; simp [ApplyImpl, hmain, hs]

/-- Witness for C7 at the null graph. -/
theorem apply_precondition_unmutated_witness :
    ApplyImpl true (none : Option GState) = .preErr .nullGraph none ∨
    ApplyImpl true (none : Option GState) = .preErr .notMainGraph none ∨
    ApplyImpl true (none : Option GState) = .preErr .nullScope none :=
  apply_precondition_unmutated true none (Or.inl rfl)

/-- C10: a graph that passes the null/main-graph/scope precondition
checks but has zero operator nodes reaches the unguarded read of the
first element of the sorted operator list: the outcome is the fatal
front-of-empty-list abort, and it is not surfaced as a precondition
error. -/
theorem empty_op_list_unchecked (uc : Bool) (g : GState) (sc : Scope)
    (hmain : g.isMain = true) (hsc : g.scope = some sc) (hops : g.ops = []) :
    ApplyImpl uc (some g) = .crash .frontEmptyOpList ∧
    ∀ e h, ApplyImpl uc (some g) ≠ .preErr e h := by
  refine ⟨by simp [ApplyImpl, hmain, hsc, hops], ?_⟩
  intro e h
  simp [ApplyImpl, hmain, hsc, hops]

/-- Witness for C10 at the concrete empty main graph. -/
theorem empty_op_list_unchecked_witness :
    emptyMainGraph.isMain = true ∧ emptyMainGraph.ops = [] ∧
    (ApplyImpl false (some emptyMainGraph) = .crash .frontEmptyOpList ∧
     ∀ e h, ApplyImpl false (some emptyMainGraph) ≠ .preErr e h) :=
  ⟨rfl, rfl, empty_op_list_unchecked false emptyMainGraph [] rfl rfl rfl⟩

/-- C2 counterexample: in the sharing-chain graph, after the
consistency filter the f3 resource group is mixed — node 0 remains
eligible while its f3-sharer node 1 has been erased (node 2 shares f1
with the ineligible node 3 and f2 with node 1, and the single forward
pass erases 2 and 1 only after node 0 was already checked). -/
theorem shared_filter_mixed_counterexample :
    (classifyOps c2sc false c2ops).toOption = some c2Classified ∧
    0 ∈ wsGroup c2Classified.2 "f3" ∧ 1 ∈ wsGroup c2Classified.2 "f3" ∧
    0 ∈ c2Final ∧ 1 ∉ c2Final := by decide

/-- C2 amended: on graphs without sharing chains — every target node
reads at most one filter name — the single-pass consistency filter does
leave every resource group unmixed: two nodes sharing a filter are
either both in the filtered set or both out of it (hypotheses: the
classification ran without a CHECK abort and node ids are distinct). -/
theorem filter_shared_no_mixed (sc : Scope) (uc : Bool) (ops : List (Nat × OpDesc))
    (valid0 : List Nat) (ws : WeightsShared) (f : String) (n m : Nat)
    (hok : classifyOps sc uc ops = .ok (valid0, ws))
    (hnd : (ops.map Prod.fst).Nodup)
    (hone : ∀ p ∈ ops, (p.2.input "Filter").length ≤ 1)
    (hn : n ∈ wsGroup ws f) (hm : m ∈ wsGroup ws f) :
    (n ∈ filterSharedOps ws ops valid0 ↔ m ∈ filterSharedOps ws ops valid0) := by
  have hwschar : ∀ (f' : String) (x : Nat),
      x ∈ wsGroup ws f' ↔ ∃ d, (x, d) ∈ ops ∧ matchesTarget d = true ∧ f' ∈ d.input "Filter" := by
    intro f' x
    have hmem := classifyAux_ws_mem sc uc ops ([], []) (valid0, ws) hok f' x
    simpa [wsGroup] using hmem
  have hsep : ∀ (f' : String) (x : Nat), x ∈ wsGroup ws f' → x ∈ wsGroup ws f → f' = f := by
    intro f' x h1 h2
    obtain ⟨d1, hd1, _, hf1⟩ := (hwschar f' x).mp h1
    obtain ⟨d2, hd2, _, hf2⟩ := (hwschar f x).mp h2
    have hdd : d1 = d2 := eq_of_mem_keyNodup hnd hd1 hd2
    subst hdd
    have hsing := eq_singleton_of_len_le_one _ f (hone (x, d1) hd1) hf2
    rw [hsing] at hf1
    exact List.mem_singleton.mp hf1
  by_cases hall : ∀ x ∈ wsGroup ws f, x ∈ valid0
  · have hk := eraseFull_keep ws f hsep ops valid0 hall
    exact iff_of_true (hk n hn) (hk m hm)
  · push_neg at hall
    obtain ⟨m0, hm0g, hm0v⟩ := hall
    have hI1 : ∀ x ∈ wsGroup ws f, x ∈ valid0 → ∃ d, (x, d) ∈ ops ∧ d.input "Filter" = [f] := by
      intro x hx _
      obtain ⟨d, hd, _, hf⟩ := (hwschar f x).mp hx
      exact ⟨d, hd, eq_singleton_of_len_le_one _ f (hone (x, d) hd) hf⟩
    have hk := eraseFull_kill ws f m0 hm0g ops valid0 hnd (Or.inr ⟨hI1, hm0v⟩)
    exact iff_of_false (hk n hn) (hk m hm)

/-- Witness for the amended C2 theorem: two eligible single-filter
operators sharing `w` both survive the filter. -/
theorem filter_shared_no_mixed_witness :
    classifyOps c4sc false c4ops = .ok ([10, 11], [("w", 10), ("w", 11)]) ∧
    (10 ∈ filterSharedOps [("w", 10), ("w", 11)] c4ops [10, 11] ↔
     11 ∈ filterSharedOps [("w", 10), ("w", 11)] c4ops [10, 11]) :=
  ⟨rfl, filter_shared_no_mixed c4sc false c4ops [10, 11] [("w", 10), ("w", 11)] "w" 10 11
    rfl (by decide) (by decide) (by decide) (by decide)⟩

/-- C4 counterexample: operators 10 and 11 are both committed and share
the persistent filter `w` through distinct value nodes 1 and 2; after
the commit loop the buffer is NHWC and node 1's declared shape is
permuted, but node 2's declared shape is untouched — the shape edit was
skipped for the later node because the buffer was already converted. -/
theorem weight_shape_edit_skipped_counterexample :
    (lookupK c4st.varDescs 1).map VarDesc.name = some "w" ∧
    (lookupK c4st.varDescs 2).map VarDesc.name = some "w" ∧
    (lookupK c4st.varDescs 2).map VarDesc.persistable = some true ∧
    (c4Final.map fun s => ((lookupK s.varDescs 1).map VarDesc.shape,
                           (lookupK s.varDescs 2).map VarDesc.shape,
                           (lookupK s.scope "w").map Tensor.layout))
      = some (some [16, 3, 3, 16], some [16, 16, 3, 3], some .kNHWC) := by decide

/-- C5 counterexample: node 20 satisfies P1 (aligned filter) and P2
(use_cudnn explicitly false with the policy flag set) and carries the
use_cudnn attribute; the commit takes the Cutlass branch first, so
use_cudnn stays false — the claim's "P1 and present implies forced
true" fails — while fuse_alpha does get its default, as claimed for
alternate-path nodes. -/
theorem use_cudnn_not_forced_counterexample :
    (cuDNNIsValid c4sc (c5d.input "Filter")).toOption = some true ∧
    CutlassIsValid true c5d = true ∧
    c5d.getAttr "use_cudnn" = some (.boolV false) ∧
    (c5Final.map fun s => (lookupK s.opDescs 20).map (fun d => d.getAttr "use_cudnn"))
      = some (some (some (.boolV false))) ∧
    (c5Final.map fun s => (lookupK s.opDescs 20).map (fun d => d.getAttr "fuse_alpha"))
      = some (some (some (.floatV 0))) := by decide

lemma mem_inputsOf (es : List (Nat × Nat)) (o v : Nat) :
    v ∈ inputsOf es o ↔ (v, o) ∈ es := by
  unfold inputsOf
  simp only [List.mem_map, List.mem_filter, beq_iff_eq]
  constructor
  · rintro ⟨p, ⟨hp, hp2⟩, hp1⟩
    cases p
    simp only at hp1 hp2
    subst hp1
    subst hp2
    exact hp
  · intro hvo
    exact ⟨(v, o), ⟨hvo, rfl⟩, rfl⟩

lemma mem_outputsOf (es : List (Nat × Nat)) (o v : Nat) :
    v ∈ outputsOf es o ↔ (o, v) ∈ es := by
  unfold outputsOf
  simp only [List.mem_map, List.mem_filter, beq_iff_eq]
  constructor
  · rintro ⟨p, ⟨hp, hp1⟩, hp2⟩
    cases p
    simp only at hp1 hp2
    subst hp1
    subst hp2
    exact hp
  · intro hvo
    exact ⟨(o, v), ⟨hvo, rfl⟩, rfl⟩

lemma inputsOf_linkTo_ne (e : List (Nat × Nat)) (a b x : Nat) (h : ¬(b = x)) :
    inputsOf (linkTo e a b) x = inputsOf e x := by
  unfold linkTo
  rw [inputsOf_append_single]
  simp [h]

lemma inputsOf_linkTo_self (e : List (Nat × Nat)) (a x : Nat) :
    inputsOf (linkTo e a x) x = inputsOf e x ++ [a] := by
  unfold linkTo
  rw [inputsOf_append_single]
  simp

lemma lookupK_append_single_some {α : Type} (l : List (Nat × α)) (k : Nat) (v : α) :
    ∃ w, lookupK (l ++ [(k, v)]) k = some w := by
  rw [lookupK_append]
  cases hl : lookupK l k with
  | none => exact ⟨v, by simp [lookupK_cons]⟩
  | some w => exact ⟨w, rfl⟩

lemma commitAttrs_fields (uc : Bool) (opId : Nat) (st st' : CState)
    (h : commitAttrs uc opId st = .ok st') :
    st'.edges = st.edges ∧ st'.cache = st.cache ∧ st'.nhwcVars = st.nhwcVars ∧
    st'.calls = st.calls ∧ st'.nextId = st.nextId := by
  unfold commitAttrs at h
  split at h
  · cases h
  · split at h
    · cases h
      exact ⟨rfl, rfl, rfl, rfl, rfl⟩
    · split at h
      · cases h
      · cases h
        exact ⟨rfl, rfl, rfl, rfl, rfl⟩
      · cases h
        exact ⟨rfl, rfl, rfl, rfl, rfl⟩

lemma shapeEditVars_fields (f : String) :
    ∀ (l : List Nat) (st st' : CState), shapeEditVars f l st = .ok st' →
      st'.edges = st.edges ∧ st'.cache = st.cache ∧ st'.nhwcVars = st.nhwcVars ∧
      st'.calls = st.calls ∧ st'.nextId = st.nextId := by
  intro l
  induction l with
  | nil =>
    intro st st' h
    cases h
    exact ⟨rfl, rfl, rfl, rfl, rfl⟩
  | cons v rest ih =>
    intro st st' h
    rw [shapeEditVars] at h
    split at h
    · cases h
    · split at h
      · have hf := ih _ st' h
        exact hf
      · have hf := ih _ st' h
        exact hf

lemma transferWeightsOne_fields (opId : Nat) (st st' : CState) (f : String)
    (h : transferWeightsOne opId st f = .ok st') :
    st'.edges = st.edges ∧ st'.cache = st.cache ∧ st'.nhwcVars = st.nhwcVars ∧
    st'.calls = st.calls ∧ st'.nextId = st.nextId := by
  unfold transferWeightsOne at h
  split at h
  · cases h
  · split at h
    · cases h
      exact ⟨rfl, rfl, rfl, rfl, rfl⟩
    · have hf := shapeEditVars_fields f _ _ st' h
      exact hf

lemma transferWeights_fields (opId : Nat) :
    ∀ (fs : List String) (st st' : CState), transferWeights opId fs st = .ok st' →
      st'.edges = st.edges ∧ st'.cache = st.cache ∧ st'.nhwcVars = st.nhwcVars ∧
      st'.calls = st.calls ∧ st'.nextId = st.nextId := by
  intro fs
  induction fs with
  | nil =>
    intro st st' h
    cases h
    exact ⟨rfl, rfl, rfl, rfl, rfl⟩
  | cons f rest ih =>
    intro st st' h
    rw [transferWeights] at h
    split at h
    · cases h
    next st1 hone =>
      obtain ⟨h1, h2, h3, h4, h5⟩ := transferWeightsOne_fields opId st st1 f hone
      obtain ⟨g1, g2, g3, g4, g5⟩ := ih st1 st' h
      exact ⟨g1.trans h1, g2.trans h2, g3.trans h3, g4.trans h4, g5.trans h5⟩

lemma outputsEdit_fields :
    ∀ (l : List Nat) (st st' : CState), outputsEdit l st = .ok st' →
      st'.edges = st.edges ∧ st'.cache = st.cache ∧ st'.calls = st.calls ∧
      st'.nextId = st.nextId ∧
      (∀ v ∈ st.nhwcVars, v ∈ st'.nhwcVars) ∧
      (∀ v ∈ st'.nhwcVars, v ∈ st.nhwcVars ∨ v ∈ l) := by
  intro l
  induction l with
  | nil =>
    intro st st' h
    cases h
    exact ⟨rfl, rfl, rfl, rfl, fun v hv => hv, fun v hv => Or.inl hv⟩
  | cons w rest ih =>
    intro st st' h
    rw [outputsEdit] at h
    split at h
    · cases h
    · split at h
      · obtain ⟨h1, h2, h3, h4, h5, h6⟩ := ih _ st' h
        exact ⟨h1, h2, h3, h4, h5,
          fun v hv => (h6 v hv).imp id (List.mem_cons_of_mem w)⟩
      · obtain ⟨h1, h2, h3, h4, h5, h6⟩ := ih _ st' h
        refine ⟨h1, h2, h3, h4, ?_, ?_⟩
        · intro v hv
          exact h5 v (mem_setInsert.mpr (Or.inl hv))
        · intro v hv
          rcases h6 v hv with hv' | hv'
          · rcases mem_setInsert.mp hv' with hin | rfl
            · exact Or.inl hin
            · exact Or.inr (List.mem_cons_self v rest)
          · exact Or.inr (List.mem_cons_of_mem w hv')

lemma insert_noPrev (prevId nextId : Nat) (fromL toL : DataLayout) (st : CState)
    (hdir : (fromL = .kNCHW ∧ toL = .kNHWC) ∨ (fromL = .kNHWC ∧ toL = .kNCHW))
    (hprev : lookupK st.varDescs prevId = none) :
    InsertLayoutTransOp prevId nextId fromL toL st = .error .missingVarNode := by
  rcases hdir with ⟨rfl, rfl⟩ | ⟨rfl, rfl⟩ <;>
  · simp [InsertLayoutTransOp, hprev]

lemma insert_hit_noVd (prevId nextId : Nat) (fromL toL : DataLayout)
    (st : CState) (pd : VarDesc) (vId : Nat)
    (hdir : (fromL = .kNCHW ∧ toL = .kNHWC) ∨ (fromL = .kNHWC ∧ toL = .kNCHW))
    (hprev : lookupK st.varDescs prevId = some pd)
    (hcache : lookupK st.cache prevId = some vId)
    (hv : lookupK st.varDescs vId = none) :
    InsertLayoutTransOp prevId nextId fromL toL st = .error .missingVarNode := by
  rcases hdir with ⟨rfl, rfl⟩ | ⟨rfl, rfl⟩ <;>
  · simp [InsertLayoutTransOp, doInsert, hprev, hcache, hv]

lemma insert_hit_noOp (prevId nextId : Nat) (fromL toL : DataLayout)
    (st : CState) (pd : VarDesc) (vId : Nat) (vd : VarDesc)
    (hdir : (fromL = .kNCHW ∧ toL = .kNHWC) ∨ (fromL = .kNHWC ∧ toL = .kNCHW))
    (hprev : lookupK st.varDescs prevId = some pd)
    (hcache : lookupK st.cache prevId = some vId)
    (hv : lookupK st.varDescs vId = some vd)
    (hnext : lookupK st.opDescs nextId = none) :
    InsertLayoutTransOp prevId nextId fromL toL st = .error .missingOpNode := by
  rcases hdir with ⟨rfl, rfl⟩ | ⟨rfl, rfl⟩ <;>
  · simp [InsertLayoutTransOp, doInsert, hprev, hcache, hv, hnext]

lemma insert_create_general (prevId nextId : Nat) (fromL toL : DataLayout)
    (st : CState) (pd cd : VarDesc) (nd : OpDesc) (outName : String)
    (hdir : (fromL = .kNCHW ∧ toL = .kNHWC ∧ outName = pd.name ++ "_nchw_to_nhwc") ∨
            (fromL = .kNHWC ∧ toL = .kNCHW ∧ outName = pd.name ++ "_nhwc_to_nchw"))
    (hprev : lookupK st.varDescs prevId = some pd)
    (hcache : lookupK st.cache prevId = none)
    (hcd : lookupK (st.varDescs ++ [(st.nextId + 1, convOutDesc st.block outName pd fromL)])
        (st.nextId + 1) = some cd)
    (hnext : lookupK (st.opDescs ++ [(st.nextId, convOpDesc pd outName fromL toL)]) nextId
        = some nd)
    (hefresh : ∀ p ∈ st.edges, ¬(p.2 = st.nextId + 1)) :
    InsertLayoutTransOp prevId nextId fromL toL st = .ok
      { st with
        calls := st.calls ++ [(prevId, fromL, toL)],
        opDescs := updateK (st.opDescs ++ [(st.nextId, convOpDesc pd outName fromL toL)]) nextId
          (nd.renameInput pd.name cd.name),
        varDescs := st.varDescs ++ [(st.nextId + 1, convOutDesc st.block outName pd fromL)],
        block := blockPut st.block outName (convOutDesc st.block outName pd fromL),
        edges := unlinkEdge (linkTo (linkTo (linkTo st.edges st.nextId (st.nextId + 1)) prevId st.nextId)
          (st.nextId + 1) nextId) prevId nextId,
        cache := st.cache ++ [(prevId, st.nextId + 1)],
        nextId := st.nextId + 2 } := by
  have hinp : inputsOf (linkTo st.edges st.nextId (st.nextId + 1)) (st.nextId + 1)
      = [st.nextId] := by
    rw [inputsOf_linkTo_self, inputsOf_of_no_target st.edges _ hefresh]
    rfl
  have hcch : lookupK (st.cache ++ [(prevId, st.nextId + 1)]) prevId
      = some (st.nextId + 1) := by
    rw [lookupK_append_right _ _ _ hcache]
    simp [lookupK_cons]
  rcases hdir with ⟨rfl, rfl, rfl⟩ | ⟨rfl, rfl, rfl⟩ <;>
  · simp only [InsertLayoutTransOp, doInsert, hprev, hcache, Option.isNone_none,
      eq_self_iff_true, if_true, hcch, hcd, hnext, hinp, List.head?_cons]
    simp

lemma insert_create_noOp (prevId nextId : Nat) (fromL toL : DataLayout)
    (st : CState) (pd : VarDesc) (outName : String)
    (hdir : (fromL = .kNCHW ∧ toL = .kNHWC ∧ outName = pd.name ++ "_nchw_to_nhwc") ∨
            (fromL = .kNHWC ∧ toL = .kNCHW ∧ outName = pd.name ++ "_nhwc_to_nchw"))
    (hprev : lookupK st.varDescs prevId = some pd)
    (hcache : lookupK st.cache prevId = none)
    (hnext : lookupK (st.opDescs ++ [(st.nextId, convOpDesc pd outName fromL toL)]) nextId
        = none) :
    InsertLayoutTransOp prevId nextId fromL toL st = .error .missingOpNode := by
  have hcch : lookupK (st.cache ++ [(prevId, st.nextId + 1)]) prevId
      = some (st.nextId + 1) := by
    rw [lookupK_append_right _ _ _ hcache]
    simp [lookupK_cons]
  obtain ⟨cd, hcd⟩ := lookupK_append_single_some st.varDescs (st.nextId + 1)
    (convOutDesc st.block outName pd fromL)
  rcases hdir with ⟨rfl, rfl, rfl⟩ | ⟨rfl, rfl, rfl⟩ <;>
  · simp only [InsertLayoutTransOp, doInsert, hprev, hcache, Option.isNone_none,
      eq_self_iff_true, if_true, hcch, hcd, hnext]
    simp

lemma insertOp_inv (n0 prevId opId : Nat) (fromL toL : DataLayout) (st st' : CState)
    (hdir : (fromL = .kNCHW ∧ toL = .kNHWC) ∨ (fromL = .kNHWC ∧ toL = .kNCHW))
    (h : InsertLayoutTransOp prevId opId fromL toL st = .ok st')
    (hn0 : n0 ≤ st.nextId) (heb : edgeBound st.nextId st.edges)
    (hck : cacheOK n0 st.cache st.nextId st.edges)
    (hprev : prevId < n0) (hop : opId < n0) :
    st'.nhwcVars = st.nhwcVars ∧ st'.calls = st.calls ++ [(prevId, fromL, toL)] ∧
    st.nextId ≤ st'.nextId ∧ edgeBound st'.nextId st'.edges ∧
    cacheOK n0 st'.cache st'.nextId st'.edges ∧
    (∀ e ∈ st'.edges, e ∈ st.edges ∨
      ((n0 ≤ e.1 ∨ e.1 = prevId) ∧ (n0 ≤ e.2 ∨ e.2 = opId))) := by
  cases hpd : lookupK st.varDescs prevId with
  | none =>
    rw [insert_noPrev prevId opId fromL toL st hdir hpd] at h
    cases h
  | some pd =>
    cases hcv : lookupK st.cache prevId with
    | some cv =>
      obtain ⟨hq1, hq2, co, hco1, hco2, hcoIn, hcoNe⟩ :=
        hck (prevId, cv) (lookupK_mem _ _ _ hcv)
      have hfr : (inputsOf st.edges cv).head? = some co := by
        rw [hcoIn]
        rfl
      cases hvd : lookupK st.varDescs cv with
      | none =>
        rw [insert_hit_noVd prevId opId fromL toL st pd cv hdir hpd hcv hvd] at h
        cases h
      | some vd =>
        cases hnd : lookupK st.opDescs opId with
        | none =>
          rw [insert_hit_noOp prevId opId fromL toL st pd cv vd hdir hpd hcv hvd hnd] at h
          cases h
        | some nd =>
          rw [insert_hit_spec prevId opId fromL toL st pd cv vd nd co hdir hpd hcv hvd hnd hfr] at h
          injection h with h
          subst h
          refine ⟨rfl, rfl, le_refl _, ?_, ?_, ?_⟩
          · intro p hp
            obtain ⟨hp1, _⟩ := (mem_unlinkEdge _ _ _ _).mp hp
            rcases (mem_linkTo _ _ _ _).mp hp1 with hp2 | rfl
            · rcases (mem_linkTo _ _ _ _).mp hp2 with hp3 | rfl
              · exact heb p hp3
              · exact ⟨show prevId < st.nextId by omega, show co < st.nextId from hco2⟩
            · exact ⟨show cv < st.nextId from hq2, show opId < st.nextId by omega⟩
          · intro q hq
            obtain ⟨hq1', hq2', co', hco1', hco2', hcoIn', hcoNe'⟩ := hck q hq
            refine ⟨hq1', hq2', co', hco1', hco2', ?_, hcoNe'⟩
            have hne1 : ¬(opId = q.2) := by omega
            rw [inputsOf_unlink_ne _ _ _ _ hne1,
              inputsOf_linkTo_ne _ _ _ _ hne1,
              inputsOf_linkTo_ne _ _ _ _ (hcoNe q hq)]
            exact hcoIn'
          · intro e he
            obtain ⟨he1, _⟩ := (mem_unlinkEdge _ _ _ _).mp he
            rcases (mem_linkTo _ _ _ _).mp he1 with he2 | rfl
            · rcases (mem_linkTo _ _ _ _).mp he2 with he3 | rfl
              · exact Or.inl he3
              · exact Or.inr ⟨Or.inr rfl, Or.inl (show n0 ≤ co from hco1)⟩
            · exact Or.inr ⟨Or.inl (show n0 ≤ cv from hq1), Or.inr rfl⟩
    | none =>
      have hne1 : ∀ p ∈ st.edges, ¬(p.2 = st.nextId + 1) := by
        intro p hp
        have := (heb p hp).2
        omega
      obtain ⟨nm, hdir3⟩ : ∃ outName,
          ((fromL = .kNCHW ∧ toL = .kNHWC ∧ outName = pd.name ++ "_nchw_to_nhwc") ∨
           (fromL = .kNHWC ∧ toL = .kNCHW ∧ outName = pd.name ++ "_nhwc_to_nchw")) := by
        rcases hdir with ⟨h1, h2⟩ | ⟨h1, h2⟩
        · exact ⟨pd.name ++ "_nchw_to_nhwc", Or.inl ⟨h1, h2, rfl⟩⟩
        · exact ⟨pd.name ++ "_nhwc_to_nchw", Or.inr ⟨h1, h2, rfl⟩⟩
      obtain ⟨cd, hcd⟩ := lookupK_append_single_some st.varDescs (st.nextId + 1)
        (convOutDesc st.block nm pd fromL)
      cases hnd : lookupK (st.opDescs ++ [(st.nextId, convOpDesc pd nm fromL toL)]) opId with
      | none =>
        rw [insert_create_noOp prevId opId fromL toL st pd nm hdir3 hpd hcv hnd] at h
        cases h
      | some nd =>
        rw [insert_create_general prevId opId fromL toL st pd cd nd nm hdir3 hpd hcv hcd hnd hne1] at h
        injection h with h
        subst h
        refine ⟨rfl, rfl, show st.nextId ≤ st.nextId + 2 by omega, ?_, ?_, ?_⟩
        · show edgeBound (st.nextId + 2) _
          intro p hp
          obtain ⟨hp1, _⟩ := (mem_unlinkEdge _ _ _ _).mp hp
          rcases (mem_linkTo _ _ _ _).mp hp1 with hp2 | rfl
          · rcases (mem_linkTo _ _ _ _).mp hp2 with hp3 | rfl
            · rcases (mem_linkTo _ _ _ _).mp hp3 with hp4 | rfl
              · obtain ⟨ha, hb⟩ := heb p hp4
                exact ⟨by omega, by omega⟩
              · exact ⟨show st.nextId < st.nextId + 2 by omega,
                  show st.nextId + 1 < st.nextId + 2 by omega⟩
            · exact ⟨show prevId < st.nextId + 2 by omega,
                show st.nextId < st.nextId + 2 by omega⟩
          · exact ⟨show st.nextId + 1 < st.nextId + 2 by omega,
              show opId < st.nextId + 2 by omega⟩
        · show cacheOK n0 (st.cache ++ [(prevId, st.nextId + 1)]) (st.nextId + 2) _
          intro q hq
          rcases List.mem_append.mp hq with hqo | hqn
          · obtain ⟨hq1', hq2', co', hco1', hco2', hcoIn', hcoNe'⟩ := hck q hqo
            refine ⟨hq1', by omega, co', hco1', by omega, ?_, ?_⟩
            · have hne2 : ¬(opId = q.2) := by omega
              rw [inputsOf_unlink_ne _ _ _ _ hne2,
                inputsOf_linkTo_ne _ _ _ _ hne2,
                inputsOf_linkTo_ne _ _ _ _ (show ¬(st.nextId = q.2) by omega),
                inputsOf_linkTo_ne _ _ _ _ (show ¬(st.nextId + 1 = q.2) by omega)]
              exact hcoIn'
            · intro q' hq'
              rcases List.mem_append.mp hq' with hq'o | hq'n
              · exact hcoNe' q' hq'o
              · have hq'e : q' = (prevId, st.nextId + 1) := by simpa using hq'n
                subst hq'e
                show ¬(co' = st.nextId + 1)
                omega
          · have hqe : q = (prevId, st.nextId + 1) := by simpa using hqn
            subst hqe
            refine ⟨show n0 ≤ st.nextId + 1 by omega,
              show st.nextId + 1 < st.nextId + 2 by omega,
              st.nextId, by omega, by omega, ?_, ?_⟩
            · show inputsOf _ (st.nextId + 1) = [st.nextId]
              rw [inputsOf_unlink_ne _ _ _ _ (show ¬(opId = st.nextId + 1) by omega),
                inputsOf_linkTo_ne _ _ _ _ (show ¬(opId = st.nextId + 1) by omega),
                inputsOf_linkTo_ne _ _ _ _ (show ¬(st.nextId = st.nextId + 1) by omega),
                inputsOf_linkTo_self, inputsOf_of_no_target st.edges _ hne1]
              rfl
            · intro q' hq'
              rcases List.mem_append.mp hq' with hq'o | hq'n
              · obtain ⟨_, hlt, _⟩ := hck q' hq'o
                show ¬(st.nextId = q'.2)
                omega
              · have hq'e : q' = (prevId, st.nextId + 1) := by simpa using hq'n
                subst hq'e
                show ¬(st.nextId = st.nextId + 1)
                omega
        · intro e he
          obtain ⟨he1, _⟩ := (mem_unlinkEdge _ _ _ _).mp he
          rcases (mem_linkTo _ _ _ _).mp he1 with he2 | rfl
          · rcases (mem_linkTo _ _ _ _).mp he2 with he3 | rfl
            · rcases (mem_linkTo _ _ _ _).mp he3 with he4 | rfl
              · exact Or.inl he4
              · exact Or.inr ⟨Or.inl (show n0 ≤ st.nextId from hn0),
                  Or.inl (show n0 ≤ st.nextId + 1 by omega)⟩
            · exact Or.inr ⟨Or.inr rfl, Or.inl (show n0 ≤ st.nextId from hn0)⟩
          · exact Or.inr ⟨Or.inl (show n0 ≤ st.nextId + 1 by omega), Or.inr rfl⟩

lemma insertValidLoop_inv (n0 opId : Nat) (E0 : List (Nat × Nat))
    (hE0 : edgeBound n0 E0) (hop : opId < n0) :
    ∀ (l : List Nat) (st st' : CState),
      insertValidLoop opId l st = .ok st' →
      (∀ v ∈ l, (v, opId) ∈ E0) →
      n0 ≤ st.nextId → edgeBound st.nextId st.edges →
      cacheOK n0 st.cache st.nextId st.edges →
      st'.nhwcVars = st.nhwcVars ∧ n0 ≤ st'.nextId ∧
      edgeBound st'.nextId st'.edges ∧
      cacheOK n0 st'.cache st'.nextId st'.edges ∧
      (∀ e ∈ st'.edges, e ∈ st.edges ∨
        ((n0 ≤ e.1 ∨ (e.1, opId) ∈ E0) ∧ (n0 ≤ e.2 ∨ e.2 = opId))) ∧
      (∀ c ∈ st'.calls, c ∈ st.calls ∨
        (c.2.1 = DataLayout.kNCHW ∧ c.2.2 = DataLayout.kNHWC ∧
          (c.1, opId) ∈ E0 ∧ c.1 ∉ st.nhwcVars)) := by
  intro l
  induction l with
  | nil =>
    intro st st' h hl hn0 heb hck
    cases h
    exact ⟨rfl, hn0, heb, hck, fun e he => Or.inl he, fun c hc => Or.inl hc⟩
  | cons v rest ih =>
    intro st st' h hl hn0 heb hck
    rw [insertValidLoop] at h
    split at h
    · cases h
    next vd hvd =>
      split at h
      next hpers =>
        exact ih st st' h (fun w hw => hl w (List.mem_cons_of_mem v hw)) hn0 heb hck
      next hpers =>
        split at h
        next hmem =>
          exact ih st st' h (fun w hw => hl w (List.mem_cons_of_mem v hw)) hn0 heb hck
        next hmem =>
          split at h
          · cases h
          next st1 hins =>
            have hvE : (v, opId) ∈ E0 := hl v (List.mem_cons_self v rest)
            have hvn0 : v < n0 := (hE0 _ hvE).1
            obtain ⟨i1, i2, i3, i4, i5, i6⟩ :=
              insertOp_inv n0 v opId .kNCHW .kNHWC st st1 (Or.inl ⟨rfl, rfl⟩)
                hins hn0 heb hck hvn0 hop
            obtain ⟨g1, g2, g3, g4, g5, g6⟩ :=
              ih st1 st' h (fun w hw => hl w (List.mem_cons_of_mem v hw))
                (le_trans hn0 i3) i4 i5
            refine ⟨g1.trans i1, g2, g3, g4, ?_, ?_⟩
            · intro e he
              rcases g5 e he with he1 | he1
              · rcases i6 e he1 with he2 | ⟨ha, hb⟩
                · exact Or.inl he2
                · refine Or.inr ⟨?_, hb⟩
                  rcases ha with ha | ha
                  · exact Or.inl ha
                  · exact Or.inr (ha ▸ hvE)
              · exact Or.inr he1
            · intro c hc
              rcases g6 c hc with hc1 | ⟨hc1, hc2, hc3, hc4⟩
              · rw [i2] at hc1
                rcases List.mem_append.mp hc1 with hc2 | hc2
                · exact Or.inl hc2
                · have hce : c = (v, DataLayout.kNCHW, DataLayout.kNHWC) := by
                    simpa using hc2
                  subst hce
                  exact Or.inr ⟨rfl, rfl, hvE, hmem⟩
              · refine Or.inr ⟨hc1, hc2, hc3, ?_⟩
                rw [i1] at hc4
                exact hc4

lemma insertInvalidLoop_inv (n0 opId : Nat) (E0 : List (Nat × Nat))
    (hE0 : edgeBound n0 E0) (hop : opId < n0) :
    ∀ (l : List Nat) (st st' : CState),
      insertInvalidLoop opId l st = .ok st' →
      (∀ v ∈ l, (v, opId) ∈ E0) →
      n0 ≤ st.nextId → edgeBound st.nextId st.edges →
      cacheOK n0 st.cache st.nextId st.edges →
      st'.nhwcVars = st.nhwcVars ∧ n0 ≤ st'.nextId ∧
      edgeBound st'.nextId st'.edges ∧
      cacheOK n0 st'.cache st'.nextId st'.edges ∧
      (∀ e ∈ st'.edges, e ∈ st.edges ∨
        ((n0 ≤ e.1 ∨ (e.1, opId) ∈ E0) ∧ (n0 ≤ e.2 ∨ e.2 = opId))) ∧
      (∀ c ∈ st'.calls, c ∈ st.calls ∨
        (c.2.1 = DataLayout.kNHWC ∧ c.2.2 = DataLayout.kNCHW ∧ c.1 ∈ st.nhwcVars)) := by
  intro l
  induction l with
  | nil =>
    intro st st' h hl hn0 heb hck
    cases h
    exact ⟨rfl, hn0, heb, hck, fun e he => Or.inl he, fun c hc => Or.inl hc⟩
  | cons v rest ih =>
    intro st st' h hl hn0 heb hck
    rw [insertInvalidLoop] at h
    split at h
    · cases h
    next vd hvd =>
      split at h
      next hmem =>
        split at h
        · cases h
        next st1 hins =>
          have hvE : (v, opId) ∈ E0 := hl v (List.mem_cons_self v rest)
          have hvn0 : v < n0 := (hE0 _ hvE).1
          obtain ⟨i1, i2, i3, i4, i5, i6⟩ :=
            insertOp_inv n0 v opId .kNHWC .kNCHW st st1 (Or.inr ⟨rfl, rfl⟩)
              hins hn0 heb hck hvn0 hop
          obtain ⟨g1, g2, g3, g4, g5, g6⟩ :=
            ih st1 st' h (fun w hw => hl w (List.mem_cons_of_mem v hw))
              (le_trans hn0 i3) i4 i5
          refine ⟨g1.trans i1, g2, g3, g4, ?_, ?_⟩
          · intro e he
            rcases g5 e he with he1 | he1
            · rcases i6 e he1 with he2 | ⟨ha, hb⟩
              · exact Or.inl he2
              · refine Or.inr ⟨?_, hb⟩
                rcases ha with ha | ha
                · exact Or.inl ha
                · exact Or.inr (ha ▸ hvE)
            · exact Or.inr he1
          · intro c hc
            rcases g6 c hc with hc1 | ⟨hc1, hc2, hc3⟩
            · rw [i2] at hc1
              rcases List.mem_append.mp hc1 with hc2 | hc2
              · exact Or.inl hc2
              · have hce : c = (v, DataLayout.kNHWC, DataLayout.kNCHW) := by
                  simpa using hc2
                subst hce
                exact Or.inr ⟨rfl, rfl, hmem⟩
            · refine Or.inr ⟨hc1, hc2, ?_⟩
              rw [i1] at hc3
              exact hc3
      next hmem =>
        exact ih st st' h (fun w hw => hl w (List.mem_cons_of_mem v hw)) hn0 heb hck

lemma commitOne_inv (uc : Bool) (valid : List Nat) (E0 : List (Nat × Nat)) (n0 : Nat)
    (hE0 : edgeBound n0 E0) (opId : Nat) (rest : List Nat) (st st' : CState)
    (h : commitOne uc valid st opId = .ok st')
    (hndr : opId ∉ rest)
    (hR : ∀ o ∈ rest, ∀ v, (o, v) ∈ E0 → ¬((v, opId) ∈ E0))
    (hob : opId < n0) (hrb : ∀ o ∈ rest, o < n0)
    (hinto : ∀ x, (x, opId) ∈ E0 → x ∉ rest)
    (hI : commitInv E0 n0 (opId :: rest) st) :
    commitInv E0 n0 rest st' := by
  obtain ⟨hn0, heb, hck, hrem, hdir⟩ := hI
  unfold commitOne at h
  split at h
  · -- valid branch
    split at h
    · cases h
    next s1 hA =>
      obtain ⟨a1, a2, a3, a4, a5⟩ := commitAttrs_fields uc opId st s1 hA
      split at h
      · cases h
      next s2 hW =>
        obtain ⟨w1, w2, w3, w4, w5⟩ := transferWeights_fields opId _ s1 s2 hW
        split at h
        · cases h
        next s3 hO =>
          unfold transferOutputs at hO
          obtain ⟨o1, o2, o3, o4, o5, o6⟩ := outputsEdit_fields _ s2 s3 hO
          have hedges3 : s3.edges = st.edges := by rw [o1, w1, a1]
          have hcache3 : s3.cache = st.cache := by rw [o2, w2, a2]
          have hcalls3 : s3.calls = st.calls := by rw [o3, w4, a4]
          have hnext3 : s3.nextId = st.nextId := by rw [o4, w5, a5]
          have hnhwc21 : s2.nhwcVars = st.nhwcVars := by rw [w3, a3]
          unfold insertForValid at h
          have hl : ∀ v ∈ inputsOf s3.edges opId, (v, opId) ∈ E0 := by
            intro v hv
            rw [hedges3] at hv
            exact (hrem opId (List.mem_cons_self opId rest)).1 v ((mem_inputsOf _ _ _).mp hv)
          obtain ⟨g1, g2, g3, g4, g5, g6⟩ :=
            insertValidLoop_inv n0 opId E0 hE0 hob _ s3 st' h hl
              (by rw [hnext3]; exact hn0)
              (by rw [hnext3, hedges3]; exact heb)
              (by rw [hcache3, hnext3, hedges3]; exact hck)
          refine ⟨g2, g3, g4, ?_, ?_⟩
          · intro o ho
            have hone : ¬(o = opId) := fun he => hndr (he ▸ ho)
            constructor
            · intro x hx
              rcases g5 (x, o) hx with hx1 | ⟨_, hx2⟩
              · rw [hedges3] at hx1
                exact (hrem o (List.mem_cons_of_mem opId ho)).1 x hx1
              · exfalso
                rcases hx2 with hx2 | hx2
                · have hx2' : n0 ≤ o := hx2
                  have := hrb o ho
                  omega
                · exact hone hx2
            · intro y hy
              rcases g5 (o, y) hy with hy1 | ⟨hy2, _⟩
              · rw [hedges3] at hy1
                exact (hrem o (List.mem_cons_of_mem opId ho)).2 y hy1
              · exfalso
                rcases hy2 with hy2 | hy2
                · have hy2' : n0 ≤ o := hy2
                  have := hrb o ho
                  omega
                · have hy2' : (o, opId) ∈ E0 := hy2
                  exact hinto o hy2' ho
          · intro c hc
            rcases g6 c hc with hc1 | ⟨hc1, hc2, hc3, hc4⟩
            · rw [hcalls3] at hc1
              rcases hdir c hc1 with ⟨d1, d2, d3⟩ | ⟨d1, d2, d3, d4⟩
              · refine Or.inl ⟨d1, d2, ?_⟩
                rw [g1]
                exact o5 c.1 (by rw [hnhwc21]; exact d3)
              · refine Or.inr ⟨d1, d2, ?_, fun o ho => d4 o (List.mem_cons_of_mem opId ho)⟩
                rw [g1]
                intro hmem3
                rcases o6 c.1 hmem3 with hmem2 | hmemL
                · rw [hnhwc21] at hmem2
                  exact d3 hmem2
                · have hoc : (opId, c.1) ∈ s2.edges := (mem_outputsOf _ _ _).mp hmemL
                  rw [w1, a1] at hoc
                  exact d4 opId (List.mem_cons_self opId rest)
                    ((hrem opId (List.mem_cons_self opId rest)).2 c.1 hoc)
            · refine Or.inr ⟨hc1, hc2, ?_, ?_⟩
              · rw [g1]
                exact hc4
              · intro o ho hoc
                exact hR o ho c.1 hoc hc3
  · -- invalid branch
    unfold insertForInvalid at h
    have hl : ∀ v ∈ inputsOf st.edges opId, (v, opId) ∈ E0 := by
      intro v hv
      exact (hrem opId (List.mem_cons_self opId rest)).1 v ((mem_inputsOf _ _ _).mp hv)
    obtain ⟨g1, g2, g3, g4, g5, g6⟩ :=
      insertInvalidLoop_inv n0 opId E0 hE0 hob _ st st' h hl hn0 heb hck
    refine ⟨g2, g3, g4, ?_, ?_⟩
    · intro o ho
      have hone : ¬(o = opId) := fun he => hndr (he ▸ ho)
      constructor
      · intro x hx
        rcases g5 (x, o) hx with hx1 | ⟨_, hx2⟩
        · exact (hrem o (List.mem_cons_of_mem opId ho)).1 x hx1
        · exfalso
          rcases hx2 with hx2 | hx2
          · have hx2' : n0 ≤ o := hx2
            have := hrb o ho
            omega
          · exact hone hx2
      · intro y hy
        rcases g5 (o, y) hy with hy1 | ⟨hy2, _⟩
        · exact (hrem o (List.mem_cons_of_mem opId ho)).2 y hy1
        · exfalso
          rcases hy2 with hy2 | hy2
          · have hy2' : n0 ≤ o := hy2
            have := hrb o ho
            omega
          · have hy2' : (o, opId) ∈ E0 := hy2
            exact hinto o hy2' ho
    · intro c hc
      rcases g6 c hc with hc1 | ⟨hc1, hc2, hc3⟩
      · rcases hdir c hc1 with ⟨d1, d2, d3⟩ | ⟨d1, d2, d3, d4⟩
        · refine Or.inl ⟨d1, d2, ?_⟩
          rw [g1]
          exact d3
        · refine Or.inr ⟨d1, d2, ?_, fun o ho => d4 o (List.mem_cons_of_mem opId ho)⟩
          rw [g1]
          exact d3
      · refine Or.inl ⟨hc1, hc2, ?_⟩
        rw [g1]
        exact hc3

lemma commitOps_inv (uc : Bool) (valid : List Nat) (E0 : List (Nat × Nat)) (n0 : Nat)
    (hE0 : edgeBound n0 E0) :
    ∀ (l : List Nat) (st st' : CState),
      commitOps uc valid l st = .ok st' →
      l.Nodup →
      l.Pairwise (fun a b => ∀ v, (b, v) ∈ E0 → ¬((v, a) ∈ E0)) →
      (∀ o ∈ l, o < n0) →
      (∀ x o, o ∈ l → (x, o) ∈ E0 → x ∉ l) →
      commitInv E0 n0 l st →
      commitInv E0 n0 ([] : List Nat) st' := by
  intro l
  induction l with
  | nil =>
    intro st st' h _ _ _ _ hI
    cases h
    exact hI
  | cons opId rest ih =>
    intro st st' h hnd hpw hb hbip hI
    rw [commitOps] at h
    split at h
    · cases h
    next s1 hone =>
      have hnd' := List.nodup_cons.mp hnd
      have hpw' := List.pairwise_cons.mp hpw
      have hstep := commitOne_inv uc valid E0 n0 hE0 opId rest st s1 hone
        hnd'.1 (fun o ho v hov hvo => hpw'.1 o ho v hov hvo)
        (hb opId (List.mem_cons_self _ _))
        (fun o ho => hb o (List.mem_cons_of_mem _ ho))
        (fun x hx hxr => hbip x opId (List.mem_cons_self _ _) hx (List.mem_cons_of_mem _ hxr))
        hI
      exact ih s1 st' h hnd'.2 hpw'.2
        (fun o ho => hb o (List.mem_cons_of_mem _ ho))
        (fun x o ho hxo hxl => hbip x o (List.mem_cons_of_mem _ ho) hxo (List.mem_cons_of_mem _ hxl))
        hstep

/-- C8: during one commit-loop run over topologically sorted operator
nodes (distinct ids below the arena bound, edges bounded, op nodes never
edge sources into other op nodes, empty initial cache and call record),
every recorded conversion-insertion request respects the direction
discipline — an NHWC→NCHW request names a producer recorded in
`vars_shape_nhwc` and an NCHW→NHWC request a producer outside it — and
consequently every producer value node is only ever passed to
`InsertLayoutTransOp` with a single direction, so the producer-keyed
cache is never consulted under a different direction than the one it
was created for. -/
theorem insert_single_direction (uc : Bool) (valid : List Nat) (opIds : List Nat)
    (st0 stF : CState)
    (hrun : commitOps uc valid opIds st0 = .ok stF)
    (hc0 : st0.calls = []) (hk0 : st0.cache = [])
    (hnd : opIds.Nodup)
    (htopo : opIds.Pairwise (fun a b => ∀ v, (b, v) ∈ st0.edges → ¬((v, a) ∈ st0.edges)))
    (hob : ∀ o ∈ opIds, o < st0.nextId)
    (hbip : ∀ x o, o ∈ opIds → (x, o) ∈ st0.edges → x ∉ opIds)
    (heb : edgeBound st0.nextId st0.edges) :
    (∀ c ∈ stF.calls,
      (c.2.1 = DataLayout.kNHWC ∧ c.2.2 = DataLayout.kNCHW ∧ c.1 ∈ stF.nhwcVars) ∨
      (c.2.1 = DataLayout.kNCHW ∧ c.2.2 = DataLayout.kNHWC ∧ c.1 ∉ stF.nhwcVars)) ∧
    (∀ c c', c ∈ stF.calls → c' ∈ stF.calls → c.1 = c'.1 → c.2 = c'.2) := by
  have hI0 : commitInv st0.edges st0.nextId opIds st0 := by
    refine ⟨le_refl _, heb, ?_, ?_, ?_⟩
    · intro p hp
      rw [hk0] at hp
      cases hp
    · intro o _
      exact ⟨fun x hx => hx, fun y hy => hy⟩
    · intro c hc
      rw [hc0] at hc
      cases hc
  obtain ⟨_, _, _, _, hd⟩ :=
    commitOps_inv uc valid st0.edges st0.nextId heb opIds st0 stF hrun hnd htopo hob hbip hI0
  constructor
  · intro c hc
    rcases hd c hc with ⟨d1, d2, d3⟩ | ⟨d1, d2, d3, _⟩
    · exact Or.inl ⟨d1, d2, d3⟩
    · exact Or.inr ⟨d1, d2, d3⟩
  · intro c c' hc hc' h1
    rcases hd c hc with ⟨d1, d2, d3⟩ | ⟨d1, d2, d3, _⟩ <;>
      rcases hd c' hc' with ⟨e1, e2, e3⟩ | ⟨e1, e2, e3, _⟩
    · exact Prod.ext_iff.mpr ⟨d1.trans e1.symm, d2.trans e2.symm⟩
    · exact absurd (h1 ▸ d3) e3
    · exact absurd (h1.symm ▸ e3) d3
    · exact Prod.ext_iff.mpr ⟨d1.trans e1.symm, d2.trans e2.symm⟩

/-- Witness for C8 at the concrete two-operator graph: the run issues
one request per direction and the theorem's discipline holds for it. -/
theorem insert_single_direction_witness :
    commitOps false [10] [10, 11] c8st = .ok c8stF ∧
    c8stF.calls = [(1, DataLayout.kNCHW, DataLayout.kNHWC),
                   (2, DataLayout.kNHWC, DataLayout.kNCHW)] ∧
    ((∀ c ∈ c8stF.calls,
      (c.2.1 = DataLayout.kNHWC ∧ c.2.2 = DataLayout.kNCHW ∧ c.1 ∈ c8stF.nhwcVars) ∨
      (c.2.1 = DataLayout.kNCHW ∧ c.2.2 = DataLayout.kNHWC ∧ c.1 ∉ c8stF.nhwcVars)) ∧
    (∀ c c', c ∈ c8stF.calls → c' ∈ c8stF.calls → c.1 = c'.1 → c.2 = c'.2)) :=
  ⟨rfl, rfl,
    insert_single_direction false [10] [10, 11] c8st c8stF rfl rfl rfl (by decide)
      (by
        constructor
        · intro b hb v hv
          have hb1 : b = 11 := by simpa using hb
          subst hb1
          intro hva
          simp [c8st] at hv
        · constructor
          · intro b hb
            exact absurd hb (List.not_mem_nil b)
          · exact List.Pairwise.nil)
      (by decide)
      (by
        intro x o ho hxo
        have ho' : o = 10 ∨ o = 11 := by simpa using ho
        rcases ho' with rfl | rfl
        · have hx1 : x = 1 := by simpa [c8st] using hxo
          subst hx1
          decide
        · have hx2 : x = 2 := by simpa [c8st] using hxo
          subst hx2
          decide)
      (by
        intro p hp
        have hp' : p = (1, 10) ∨ p = (10, 2) ∨ p = (2, 11) := by simpa [c8st] using hp
        rcases hp' with rfl | rfl | rfl <;> exact ⟨by decide, by decide⟩)⟩

end TransferLayoutPassModel
